import Mathlib

/-!
Verification development for the open-policy-agent repository sources.

Each section embeds one part of the source (or, where the storage core is
absent from the extracted sources, a model written from the specification)
and proves the properties claimed about it.
-/

set_option maxHeartbeats 1000000

namespace OPA

/-! ## Bundle persistence (`internal/bundle/utils.go`) -/

/-- Result of an `os.Stat` call as observed by `LoadBundleFromDisk`:
the file exists, it does not exist, or the stat fails with another error. -/
inductive StatResult where
  | exist
  | notExist
  | otherErr
deriving DecidableEq, Repr

/-- Outcome of reading and decoding one of the persisted bundle files.
`ok` carries the decoded bundle, the error cases mirror the wrapped error
returns in `LoadBundleFromDisk`. -/
inductive FileReadOutcome (β : Type) where
  | ok (b : β)
  | openFailed
  | decodeFailed
  | readFailed
deriving DecidableEq, Repr

/-- The directory state that `LoadBundleFromDisk(path, opts)` observes:
stat results for `bundlePackage.json` and `bundle.tar.gz`, the stat error
kind for the legacy file, and the outcomes of the two read paths. -/
structure BundleDir (β : Type) where
  pkgStat : StatResult
  tarStat : StatResult
  pkgRead : FileReadOutcome β
  tarRead : FileReadOutcome β
deriving DecidableEq, Repr

/-- Errors surfaced by `LoadBundleFromDisk`. -/
inductive BundleLoadErr where
  | openBundlePackage
  | decodeBundlePackage
  | readBundleData
  | openBundleFile
  | statErr
deriving DecidableEq, Repr

/-- Shallow embedding of `LoadBundleFromDisk` (`internal/bundle/utils.go`,
lines 117-178): prefer `bundlePackage.json` when its stat succeeds, fall
back to the legacy `bundle.tar.gz`, and return a nil bundle with a nil
error when the legacy file does not exist. The result pairs the returned
bundle pointer (`none` = nil) with the returned error (`none` = nil). -/
def LoadBundleFromDisk {β : Type} (d : BundleDir β) :
    Option β × Option BundleLoadErr :=
  if d.pkgStat = .exist then
    match d.pkgRead with
    | .ok b => (some b, none)
    | .openFailed => (none, some .openBundlePackage)
    | .decodeFailed => (none, some .decodeBundlePackage)
    | .readFailed => (none, some .readBundleData)
  else
    if d.tarStat = .exist then
      match d.tarRead with
      | .ok b => (some b, none)
      | .openFailed => (none, some .openBundleFile)
      | .decodeFailed => (none, some .readBundleData)
      | .readFailed => (none, some .readBundleData)
    else
      if d.tarStat = .notExist then (none, none)
      else (none, some .statErr)

/-! ## Process-wide builtin/plugin registries (`topdown/aggregates.go`,
`topdown` uuid builtins, and the runtime shared-object loader) -/

/-- The call sites in the extracted sources that write the process-wide
builtin and plugin registries (`ast.RegisterBuiltin`,
`topdown.RegisterFunctionalBuiltin1`, `topdown.RegisterBuiltinFunc`,
`runtime.RegisterPlugin`). -/
inductive RegistryWriteSite where
  /-- `init` of `topdown/aggregates.go` (lines 140-149): registers the
  count/sum/product/max/min/sort/all/any builtins. -/
  | aggregatesInit
  /-- `init` of the topdown uuid source file: registers the
  `uuid.rfc4122` and `uuid.parse` builtins. -/
  | uuidInit
  /-- `init` of the topdown JSON-patch source file (in
  `build/binary-smoke-test.sh`): registers the `json.patch` builtin via
  `RegisterBuiltinFunc(ast.JSONPatchApply.Name, ...)`. -/
  | jsonPatchInit
  /-- `init` of the topdown net-lookup source file (in
  `build/binary-smoke-test.sh`): registers the `net.lookup_ip_addr`
  builtin via `RegisterBuiltinFunc(ast.NetLookupIPAddr.Name, ...)`. -/
  | netLookupInit
  /-- `registerBuiltinFromFile` in the runtime shared-object loader:
  calls `ast.RegisterBuiltin` and a `topdown.Register*` function for a
  builtin loaded from a `.builtin.so` file. -/
  | builtinFromFile
  /-- `registerPluginFromFile` in the runtime shared-object loader:
  calls `RegisterPlugin` for a plugin loaded from a `.plugin.so` file. -/
  | pluginFromFile
  /-- `TestRunnerCancel` in `topdown/net_test.go` (lines 221-229): calls
  `ast.RegisterBuiltin` and `topdown.RegisterFunctionalBuiltin1` for the
  `test.sleep` builtin from inside a test function at test run time. -/
  | testRunnerCancel
deriving DecidableEq, Repr

/-- Whether the enclosing Go function of the registry write site is a
package `init` function. `registerBuiltinFromFile` and
`registerPluginFromFile` are ordinary functions reached from the exported
`RegisterSharedObjectsFromDir`, and `TestRunnerCancel` is a test
function, not an `init` function. -/
def RegistryWriteSite.inInitFunction : RegistryWriteSite → Bool
  | .aggregatesInit => true
  | .uuidInit => true
  | .jsonPatchInit => true
  | .netLookupInit => true
  | .builtinFromFile => false
  | .pluginFromFile => false
  | .testRunnerCancel => false

/-- Whether the site is reached (only) from the exported
`RegisterSharedObjectsFromDir` entry point, which callers may invoke after
package initialization has completed. -/
def RegistryWriteSite.viaRegisterSharedObjects : RegistryWriteSite → Bool
  | .aggregatesInit => false
  | .uuidInit => false
  | .jsonPatchInit => false
  | .netLookupInit => false
  | .builtinFromFile => true
  | .pluginFromFile => true
  | .testRunnerCancel => false

/-- Whether the site sits inside a Go test function, executed while its
test runs. -/
def RegistryWriteSite.inTestFunction : RegistryWriteSite → Bool
  | .testRunnerCancel => true
  | _ => false

/-! ## Storage core: logical document model

The `storage/disk` store-lifecycle source (`package disk`: `New`,
`Store.init`, `validatePartitions`, `Store.Commit`, `Store.Register`) is
among the extracted files, embedded in `build/binary-smoke-test.sh`; the
transaction internals (`txn.go`: `newTransaction`, the per-key
`Read`/`Write`/`Commit`) and the path mapper / partition trie
(`paths.go`) are not.  The transaction semantics below are therefore
modelled from the specification (sections 3, 4.4, 4.5 and 8).  The
partition trie only controls the physical sharding of values into KV
keys; by spec invariants 5 and 6 the logical read/write semantics are
independent of the partition layout, so the model works on the logical
document rooted at `/`. -/

/-- A JSON number as handled by the store: either an exact finite number
(modelled as an integer token) or one of the non-finite floating values
that JSON marshalling rejects. -/
inductive JNum where
  | fin (i : Int)
  | nan
  | posInf
  | negInf
deriving DecidableEq, Repr

/-- Modelled from the spec: a JSON value — null, boolean, number, string,
ordered sequence, or mapping from string to value (spec section 3,
"Value"). -/
inductive Json where
  | null
  | bool (b : Bool)
  | num (n : JNum)
  | str (s : String)
  | arr (elems : List Json)
  | obj (fields : List (String × Json))

mutual

/-- `true` iff the value contains no non-finite numbers, i.e. iff it
round-trips through JSON text. -/
def finiteNums : Json → Bool
  | .null => true
  | .bool _ => true
  | .num (.fin _) => true
  | .num _ => false
  | .str _ => true
  | .arr elems => finiteNumsList elems
  | .obj fields => finiteNumsKVs fields

/-- All elements of the list round-trip through JSON text. -/
def finiteNumsList : List Json → Bool
  | [] => true
  | x :: xs => finiteNums x && finiteNumsList xs

/-- All values of the field list round-trip through JSON text. -/
def finiteNumsKVs : List (String × Json) → Bool
  | [] => true
  | (_, v) :: xs => finiteNums v && finiteNumsKVs xs

end

/-- Look up the binding for `key` in an object's field list. -/
def lookupKV : List (String × Json) → String → Option Json
  | [], _ => none
  | (k, v) :: rest, key => if k = key then some v else lookupKV rest key

/-- Replace the binding for `key` (or append it if absent). -/
def setKV : List (String × Json) → String → Json → List (String × Json)
  | [], key, v => [(key, v)]
  | (k, w) :: rest, key, v =>
    if k = key then (k, v) :: rest else (k, w) :: setKV rest key v

/-- Remove the binding for `key` if present. -/
def removeKV : List (String × Json) → String → List (String × Json)
  | [], _ => []
  | (k, w) :: rest, key =>
    if k = key then rest else (k, w) :: removeKV rest key

/-- Modelled from the spec: reading at a path descends into the decoded
value and returns the nested sub-value or `NOT_FOUND` (spec section 4.4,
`Read`; `none` is `NOT_FOUND`). -/
def getPath : Json → List String → Option Json
  | v, [] => some v
  | .obj fields, k :: p =>
    match lookupKV fields k with
    | some v => getPath v p
    | none => none
  | _, _ :: _ => none

/-- Modelled from the spec: installing a value at a path; `Add` at a path
whose parent object does not yet exist implicitly creates all
intermediate mapping levels (spec section 4.4, `Write`), replacing any
non-object value found along the way. -/
def addPath : Json → List String → Json → Json
  | _, [], v => v
  | .obj fields, k :: p, v =>
    .obj (setKV fields k (addPath ((lookupKV fields k).getD (.obj [])) p v))
  | _, k :: p, v => .obj [(k, addPath (.obj []) p v)]

/-- Modelled from the spec: deleting the value at a path together with
everything under it (spec section 4.4, `Remove`); deleting the root
leaves the empty document. Assumes existence was already checked. -/
def delPath : Json → List String → Json
  | _, [] => .obj []
  | .obj fields, k :: p =>
    if p = [] then .obj (removeKV fields k)
    else
      match lookupKV fields k with
      | some v => .obj (setKV fields k (delPath v p))
      | none => .obj fields
  | v, _ :: _ => v

/-- Error kinds of the storage layer (spec section 7). -/
inductive StoreErr where
  | notFound
  | invalidTxn
  | internalErr
  | engineErr
deriving DecidableEq, Repr

/-- Write operations (spec section 4.4). -/
inductive WriteOp where
  | add
  | replace
  | remove
deriving DecidableEq, Repr

/-- Modelled from the spec: a transaction carries an identifier, a mode
flag, a stale flag, and staged state plus the staged change log summary
used for trigger event synthesis (spec section 4.4). -/
structure Txn where
  txnId : Nat
  isWrite : Bool
  stale : Bool
  snapshot : Json
  policySnapshot : List (String × String)
  dataChangedFlag : Bool
  policyChangedFlag : Bool

/-- Modelled from the spec: the store owns the committed document, the
policy collection and the transaction id counter (spec section 4.5). -/
structure DiskStore where
  doc : Json
  policies : List (String × String)
  nextTxnId : Nat

/-- Modelled from the spec: `NewTransaction` increments the id counter and
snapshots the committed state (spec section 4.5). -/
def newTransaction (s : DiskStore) (write : Bool) : Txn :=
  { txnId := s.nextTxnId
    isWrite := write
    stale := false
    snapshot := s.doc
    policySnapshot := s.policies
    dataChangedFlag := false
    policyChangedFlag := false }

/-- Modelled from the spec: `Read(path)` fails on a stale transaction,
descends into the staged document and returns the sub-value or
`NOT_FOUND` (spec section 4.4). -/
def Txn.readPath (t : Txn) (p : List String) : Except StoreErr Json :=
  if t.stale then .error .invalidTxn
  else
    match getPath t.snapshot p with
    | some v => .ok v
    | none => .error .notFound

/-- Modelled from the spec: `Write(op, path, value)` fails on a stale or
read-only transaction; values with non-finite numbers are rejected before
any key is touched (encoding failures are `INTERNAL`, spec sections 4.4
and 7); `Remove` of a non-existent path fails with `NOT_FOUND`; `Replace`
on a non-existent path fails; `Add` overwrites and implicitly creates
intermediate levels; a successful write records the change in the staged
log (spec section 4.4). -/
def Txn.writePath (t : Txn) (op : WriteOp) (p : List String) (v : Json) :
    Except StoreErr Txn :=
  if t.stale then .error .invalidTxn
  else if !t.isWrite then .error .invalidTxn
  else
    match op with
    | .remove =>
      match getPath t.snapshot p with
      | some _ =>
        .ok { t with snapshot := delPath t.snapshot p, dataChangedFlag := true }
      | none => .error .notFound
    | .replace =>
      if finiteNums v = false then .error .internalErr
      else
        match getPath t.snapshot p with
        | some _ =>
          .ok { t with snapshot := addPath t.snapshot p v, dataChangedFlag := true }
        | none => .error .notFound
    | .add =>
      if finiteNums v = false then .error .internalErr
      else
        .ok { t with snapshot := addPath t.snapshot p v, dataChangedFlag := true }

/-- Modelled from the spec: `UpsertPolicy` stages the policy body under
the identifier and records a policy change (spec sections 4.4 and 8.3). -/
def Txn.upsertPolicy (t : Txn) (id body : String) : Except StoreErr Txn :=
  if t.stale then .error .invalidTxn
  else if !t.isWrite then .error .invalidTxn
  else
    .ok { t with
            policySnapshot := (id, body) :: (t.policySnapshot.filter (·.1 ≠ id))
            policyChangedFlag := true }

/-- Modelled from the spec: the trigger event synthesized at commit,
summarizing whether data or policies changed (spec sections 4.4 and
glossary). -/
structure TriggerEvent where
  dataChanged : Bool
  policyChanged : Bool
deriving DecidableEq, Repr

/-- Modelled from the spec: `Commit` atomically installs the staged state
into the store and synthesizes the `TriggerEvent` from the staged change
log (spec sections 4.4 and 4.5). -/
def commitTxn (s : DiskStore) (t : Txn) : DiskStore × TriggerEvent :=
  ({ doc := t.snapshot
     policies := t.policySnapshot
     nextTxnId := s.nextTxnId + 1 },
   { dataChanged := t.dataChangedFlag
     policyChanged := t.policyChangedFlag })

/-! ## Store open / migration (`New`, `Store.init`, `validatePartitions`
in the disk store source embedded in `build/binary-smoke-test.sh`, lines
159-209 and 463-543; the `pathSet` helpers `Sorted`/`IsDisjoint`/`Diff`
live in the absent `paths.go` and are modelled from the spec) -/

/-- A segment of a partition pattern: a literal segment or the wildcard
`*` token (spec section 3, "Partition Pattern"). -/
inductive Seg where
  | lit (s : String)
  | star
deriving DecidableEq, Repr

/-- A partition pattern is a path whose segments may be wildcards. -/
abbrev Pattern := List Seg

/-- The `metadata` record (disk store source, lines 148-152):
`{schema_version, partition_version, partitions}`. -/
structure StoreMetadata where
  schemaVersion : Nat
  partitionVersion : Nat
  partitions : List Pattern
deriving DecidableEq, Repr

/-- The on-disk state `Store.init` observes through the underlying
transaction: the optional metadata record (`loadMetadata`, disk store
source lines 430-451) and the logical paths at which data keys exist
(probed by exact-key `txn.Get` in `validatePartitions`). -/
structure PersistedState where
  metadata : Option StoreMetadata
  dataPaths : List (List String)
deriving DecidableEq, Repr

/-- `supportedSchemaVersion` (disk store source in
`build/binary-smoke-test.sh`, lines 139-141): the version of the store
supported by this OPA. -/
def supportedSchemaVersion : Nat := 1

/-- `basePartitionVersion` (disk store source, lines 143-145): the
version of the caller-supplied data layout. -/
def basePartitionVersion : Nat := 1

/-- `systemPartition` (disk store source, lines 154-156): the partition
added automatically; no user-defined partition should apply to the
`/system` path. -/
def systemPartition : Pattern := [.lit "system", .star]

/-- The string a segment renders to in an underlying store key
(`DataPath2Key` in the absent `paths.go`); the wildcard is the literal
`*` string, as in `storage.MustParsePath("/system/*")`. -/
def segKey : Seg → String
  | .lit s => s
  | .star => "*"

/-- Lexicographic order on patterns used for sorting. -/
def patLeB : Pattern → Pattern → Bool
  | [], _ => true
  | _ :: _, [] => false
  | a :: as, b :: bs =>
    if segKey a = segKey b then patLeB as bs else decide (segKey a < segKey b)

/-- Modelled from the spec: `pathSet.Sorted` (in the absent `paths.go`)
— the declared partitions in sorted order (spec section 4.6, step 2). -/
def normalizePartitions (l : List Pattern) : List Pattern :=
  l.insertionSort (fun a b => patLeB a b = true)

/-- `true` iff the segments are compatible, treating `*` as matching any
single segment. -/
def segCompat : Seg → Seg → Bool
  | .star, _ => true
  | _, .star => true
  | .lit x, .lit y => x = y

/-- `true` iff the first pattern is a prefix of the second, `*` matching
any single segment (spec section 3, invariant 1). -/
def patPrefixMatch : Pattern → Pattern → Bool
  | [], _ => true
  | _ :: _, [] => false
  | a :: as, b :: bs => segCompat a b && patPrefixMatch as bs

/-- Modelled from the spec: the violation `pathSet.IsDisjoint` (in the
absent `paths.go`) rejects — some pattern is a (wildcard-compatible)
prefix of another distinct pattern (spec section 3, invariant 1). -/
def overlapAny (l : List Pattern) : Bool :=
  l.any (fun p => l.any (fun q =>
    decide (p ≠ q) && (patPrefixMatch p q || patPrefixMatch q p)))

/-- Modelled from the spec: `pathSet.Diff` (in the absent `paths.go`) —
the paths of the first set not present in the second. -/
def pathDiff (a b : List Pattern) : List Pattern :=
  a.filter (fun p => decide (p ∉ b))

/-- The probe loop of `validatePartitions` (disk store source, lines
524-539) for one added partition: for `i = len(path)` down to `1`, look
up the exact data key for `path[:i]` — the prefixes including the
partition path itself and excluding the root.  `dataPaths` is the set of
logical paths at which data keys exist, and the exact-key `txn.Get` is
membership of the rendered prefix. -/
def partitionHasExistingData (q : Pattern) (dataPaths : List (List String)) : Bool :=
  (List.range q.length).any (fun i =>
    dataPaths.any (fun d => d = (q.take (i + 1)).map segKey))

/-- The partition set `New` (disk store source, lines 159-178) hands to
`Store.init`: the sorted declared partitions with `systemPartition`
appended. -/
def effectivePartitions (declared : List Pattern) : List Pattern :=
  normalizePartitions declared ++ [systemPartition]

/-- `New` followed by `Store.init` and `validatePartitions` (disk store
source, lines 159-209, 463-509 and 511-543), over the logical persisted
state: sort the declared partitions and check disjointness (`INTERNAL`
on overlap), append `/system/*` and check again; load the metadata
record; a found record with an unsupported schema version is `INTERNAL`;
when no record is found, write a fresh one and finish; otherwise removed
partitions (`Diff` of old against new non-empty) are `INTERNAL`, an
added partition with an existing data key at any of its non-root
prefixes (itself included) is `INTERNAL`, and otherwise the updated
metadata is asserted.  The badger handle, prometheus registration, GC
goroutine and debug diagnostics are process-local side effects outside
the logical state. -/
def newStore (declared : List Pattern) (ps : PersistedState) :
    Except StoreErr StoreMetadata :=
  if overlapAny (normalizePartitions declared) then .error .internalErr
  else if overlapAny (effectivePartitions declared) then .error .internalErr
  else
    match ps.metadata with
    | none =>
      .ok { schemaVersion := supportedSchemaVersion
            partitionVersion := basePartitionVersion
            partitions := effectivePartitions declared }
    | some md =>
      if md.schemaVersion ≠ supportedSchemaVersion then .error .internalErr
      else if pathDiff md.partitions (effectivePartitions declared) ≠ [] then
        .error .internalErr
      else if (pathDiff (effectivePartitions declared) md.partitions).any
            (fun q => partitionHasExistingData q ps.dataPaths) then
        .error .internalErr
      else
        .ok { schemaVersion := supportedSchemaVersion
              partitionVersion := basePartitionVersion
              partitions := effectivePartitions declared }

/-! ## Triggers and the plugin manager (`Store.Commit`, `Store.Register`
and `handle` in the disk store source embedded in
`build/binary-smoke-test.sh`, lines 269-294, 350-364 and 411-428;
`plugins/plugins.go` for the manager) -/

/-- The dispatch loop of `Store.Commit` (disk store source, lines
284-286): `for h := range db.triggers { h.cb(ctx, readTxn, event) }` —
every registered callback is invoked with the read-only view of the
committed state and the commit event.  The `db.triggers` set is modelled
as a list; a Go map iterates in unspecified order, and the theorems below
hold for every order.  Each callback updates its client state `σ`; the
reader/writer lock guarding that state is modelled by treating each
callback application as one atomic state update. -/
def dispatchTriggers {σ : Type} (cbs : List (TriggerEvent → DiskStore → σ → σ))
    (e : TriggerEvent) (view : DiskStore) (st : σ) : σ :=
  cbs.foldl (fun acc cb => cb e view acc) st

/-- The store together with its registered triggers: the `db.triggers`
map of `handle`s (disk store source, lines 130 and 411-414), each
carrying its `cb` callback over client state `σ`. -/
structure TriggerStore (σ : Type) where
  store : DiskStore
  triggers : List (TriggerEvent → DiskStore → σ → σ)

/-- `Store.Register` (disk store source, lines 350-364): registering a
trigger on a stale or read-only transaction fails with
`InvalidTransactionErr`; otherwise the handle is added to the trigger
set. -/
def registerTrigger {σ : Type} (ts : TriggerStore σ) (t : Txn)
    (cb : TriggerEvent → DiskStore → σ → σ) : Except StoreErr (TriggerStore σ) :=
  if t.stale then .error .invalidTxn
  else if !t.isWrite then .error .invalidTxn
  else .ok { ts with triggers := cb :: ts.triggers }

/-- The write path of `Store.Commit` (disk store source, lines 274-288):
commit the underlying write transaction (`underlying.Commit`, in the
absent `txn.go`, modelled as `commitTxn` per spec section 4.5), open a
fresh read-only transaction over the committed state, and invoke every
registered trigger with it and the event.  Returns the committed store,
the event, and the client state after dispatch. -/
def commitAndDispatch {σ : Type} (ts : TriggerStore σ) (t : Txn) (st : σ) :
    TriggerStore σ × TriggerEvent × σ :=
  ({ store := (commitTxn ts.store t).1, triggers := ts.triggers },
   (commitTxn ts.store t).2,
   dispatchTriggers ts.triggers (commitTxn ts.store t).2 (commitTxn ts.store t).1 st)

/-- The plugin manager state relevant to the compiler swap
(`plugins/plugins.go`, `Manager`): the compiler reference guarded by
`mtx`. `C` abstracts `*ast.Compiler`. -/
structure Manager (C : Type) where
  compiler : Option C

/-- From `plugins/plugins.go` `loadCompilerFromStore` (lines 131-153):
list the policies of the store, parse each and compile the module map.
`compile` abstracts `ast.ParseModule` plus `ast.NewCompiler().Compile`,
which live outside the extracted sources. -/
def loadCompilerFromStore {C : Type} (compile : List (String × String) → C)
    (s : DiskStore) : C :=
  compile s.policies

/-- From `plugins/plugins.go` `Start` (lines 117-126): the on-commit
callback registered by the manager — when the event reports a policy
change it rebuilds the compiler from the policies read through the
supplied transaction and swaps it in via `setCompiler`; otherwise it
leaves the manager untouched. -/
def managerOnCommit {C : Type} (compile : List (String × String) → C)
    (e : TriggerEvent) (view : DiskStore) (m : Manager C) : Manager C :=
  if e.policyChanged then { m with compiler := some (loadCompilerFromStore compile view) }
  else m

/-! ## Aggregate builtins (`topdown/aggregates.go`)

The builtins operate on `ast.Value` collections.  The `ast` value type
and `ast.Compare` live outside the extracted sources; following the spec
design note ("model Value as a tagged variant"), ground values are
modelled with the variant below, extended with sets (which the aggregate
builtins iterate).  `ast.Compare` orders values first by sort rank
(Null < Boolean < Number < String < ... < Array < Object < Set) and then
componentwise; arrays compare elementwise, objects compare their sorted
key/value pairs, sets compare their sorted elements. -/

/-- A ground `ast.Value`: the spec's tagged variant plus sets. -/
inductive AstV where
  | null
  | bool (b : Bool)
  | num (i : Int)
  | str (s : String)
  | arr (xs : List AstV)
  | obj (kvs : List (String × AstV))
  | set (xs : List AstV)

/-- The sort rank of a value kind in the `ast.Compare` order. -/
def rank : AstV → Nat
  | .null => 0
  | .bool _ => 1
  | .num _ => 2
  | .str _ => 3
  | .arr _ => 4
  | .obj _ => 5
  | .set _ => 6

/-- Three-way comparison induced by a linear order. -/
def cmpLO {α : Type} [LinearOrder α] (a b : α) : Ordering :=
  if a < b then .lt else if a = b then .eq else .gt

mutual

/-- Modelled `ast.Compare` on ground values: rank order between kinds,
componentwise within a kind. -/
def compareV : AstV → AstV → Ordering
  | .null, .null => .eq
  | .bool x, .bool y => cmpLO x y
  | .num x, .num y => cmpLO x y
  | .str x, .str y => cmpLO x y
  | .arr xs, .arr ys => compareL xs ys
  | .obj xs, .obj ys => compareO xs ys
  | .set xs, .set ys => compareL xs ys
  | a, b => cmpLO (rank a) (rank b)
  termination_by structural a => a

/-- Lexicographic comparison of value sequences (`termSliceCompare`). -/
def compareL : List AstV → List AstV → Ordering
  | [], [] => .eq
  | [], _ :: _ => .lt
  | _ :: _, [] => .gt
  | x :: xs, y :: ys => (compareV x y).then (compareL xs ys)
  termination_by structural xs => xs

/-- Lexicographic comparison of sorted object key/value pair lists:
each pair compares by key first, then value. -/
def compareO : List (String × AstV) → List (String × AstV) → Ordering
  | [], [] => .eq
  | [], _ :: _ => .lt
  | _ :: _, [] => .gt
  | (k₁, v₁) :: xs, (k₂, v₂) :: ys =>
    ((cmpLO k₁ k₂).then (compareV v₁ v₂)).then (compareO xs ys)
  termination_by structural xs => xs

end

/-- Errors of the aggregate builtins: `BuiltinEmpty` for empty
collections, `builtins.NewOperandTypeErr` for non-collection operands. -/
inductive AggErr where
  | empty
  | operandTypeErr
deriving DecidableEq, Repr

/-- The reduction step of `builtinMax` (`topdown/aggregates.go` lines
64-69): keep the element when the accumulator compares less-or-equal. -/
def maxStep (m e : AstV) : AstV :=
  if compareV m e ≠ .gt then e else m

/-- The reduction step of `builtinMin` (`topdown/aggregates.go` lines
82-94): restart from the element while the accumulator is still the null
term, otherwise keep the element when the accumulator compares
greater-or-equal. -/
def minStep (m e : AstV) : AstV :=
  if compareV m .null = .eq then e
  else if compareV m e ≠ .lt then e
  else m

/-- `builtinMax` (`topdown/aggregates.go` lines 58-74): on an iterable
value, fail with `BuiltinEmpty` when it has no elements, otherwise reduce
starting from the null term. -/
def builtinMax : AstV → Except AggErr AstV
  | .arr xs =>
    if xs.length = 0 then .error .empty else .ok (xs.foldl maxStep .null)
  | .set xs =>
    if xs.length = 0 then .error .empty else .ok (xs.foldl maxStep .null)
  | _ => .error .operandTypeErr

/-- `builtinMin` (`topdown/aggregates.go` lines 76-98): on an iterable
value, fail with `BuiltinEmpty` when it has no elements, otherwise reduce
starting from the null term with the null-restart step. -/
def builtinMin : AstV → Except AggErr AstV
  | .arr xs =>
    if xs.length = 0 then .error .empty else .ok (xs.foldl minStep .null)
  | .set xs =>
    if xs.length = 0 then .error .empty else .ok (xs.foldl minStep .null)
  | _ => .error .operandTypeErr

/-- `term.Equal` on ground values: equality is comparison yielding 0. -/
def astEqB (a b : AstV) : Bool := decide (compareV a b = Ordering.eq)

/-- `builtinAll` (`topdown/aggregates.go` lines 108-122): true iff every
element equals the boolean term `true`. -/
def builtinAll : AstV → Except AggErr AstV
  | .arr xs => .ok (.bool (xs.all fun t => astEqB t (.bool true)))
  | .set xs => .ok (.bool (xs.all fun t => astEqB t (.bool true)))
  | _ => .error .operandTypeErr

/-- `builtinAny` (`topdown/aggregates.go` lines 124-138): true iff some
element equals the boolean term `true`. -/
def builtinAny : AstV → Except AggErr AstV
  | .arr xs => .ok (.bool (xs.any fun t => astEqB t (.bool true)))
  | .set xs => .ok (.bool (xs.any fun t => astEqB t (.bool true)))
  | _ => .error .operandTypeErr

/-! ## Rule dependency graph and `Graph.Sort`

Modelled from the spec: the compiler's `Graph` type and its `Sort`
method are not among the extracted sources (only their tests are);
following the spec design note, the rule graph is modelled as
nodes-by-index with adjacency lists, and `Sort` as the standard
depth-first search with colour marks: white nodes are unvisited, a node
is grey (on the stack) while its dependencies are visited, and black
nodes are finished and appended to the output after their dependencies,
so a grey hit reports a cycle. -/

/-- The rule dependency graph: `n` rules indexed `0..n-1`; `adj i` lists
the rules that rule `i` depends on. -/
structure RuleGraph where
  n : Nat
  adj : Nat → List Nat

mutual

/-- DFS visit of one node: finished nodes are accepted, white nodes are
marked grey (removed from `white`), their dependencies visited, and the
node appended to the output; a grey node (neither white nor finished)
reports a cycle by returning `none`. -/
def visit (adj : Nat → List Nat) (white black : List Nat) (node : Nat) :
    Option (List Nat) :=
  if node ∈ black then some black
  else if hw : node ∈ white then
    match visitList adj (white.erase node) black (adj node) with
    | some black' => some (black' ++ [node])
    | none => none
  else none
  termination_by (white.length, 0)
  decreasing_by
    all_goals simp_wf
    all_goals first
      | exact Prod.Lex.left _ _ (by
          have h1 := List.length_erase_of_mem hw
          have h2 := List.length_pos_of_mem hw
          omega)
      | exact Prod.Lex.right _ (by omega)

/-- DFS visit of a dependency list, threading the output accumulator. -/
def visitList (adj : Nat → List Nat) (white black : List Nat) :
    List Nat → Option (List Nat)
  | [] => some black
  | d :: ds =>
    match visit adj white black d with
    | some black' => visitList adj white black' ds
    | none => none
  termination_by ds => (white.length, ds.length + 1)
  decreasing_by
    all_goals simp_wf
    all_goals first
      | exact Prod.Lex.right _ (by omega)
      | exact Prod.Lex.left _ _ (by omega)
      | omega

end

/-- The outer loop of `Sort`: visit every node not yet finished, with
the white set recomputed as the unfinished nodes. -/
def sortLoop (adj : Nat → List Nat) (n : Nat) (black : List Nat) :
    List Nat → Option (List Nat)
  | [] => some black
  | i :: rest =>
    match visit adj ((List.range n).filter (fun j => decide (j ∉ black))) black i with
    | some black' => sortLoop adj n black' rest
    | none => none

/-- `Graph.Sort`: `none` plays the role of `ok = false`. -/
def RuleGraph.sortRules (g : RuleGraph) : Option (List Nat) :=
  sortLoop g.adj g.n [] (List.range g.n)

/-- A rule graph is well-formed when dependencies stay inside the node
range. -/
def RuleGraph.wf (g : RuleGraph) : Prop :=
  ∀ i < g.n, ∀ d ∈ g.adj i, d < g.n

/-- The rule graph has a dependency cycle. -/
def RuleGraph.Cyclic (g : RuleGraph) : Prop :=
  ∃ i, i < g.n ∧ Relation.TransGen (fun a b => b ∈ g.adj a) i i

/-- A topological order of the graph: no duplicates, and every
dependency of a listed rule is listed earlier. -/
def TopoOrder (adj : Nat → List Nat) (order : List Nat) : Prop :=
  order.Nodup ∧
  ∀ i ∈ order, ∀ d ∈ adj i, d ∈ order ∧ order.indexOf d < order.indexOf i

/-! ## `TypeEnv.Get` (`ast/env.go`)

`TypeEnv.Get` dispatches on the dynamic type of its `interface{}`
argument; the claim is that every input in the `ast.Value` variant is
handled without reaching the `panic("unreachable")` default branch.  The
`ast.Value` constructors and the `types` package live outside the
extracted sources and are modelled below (coarsely where only totality
matters); `Get` itself and its helpers (`getRef`, `getRefFallback`,
`getRefRec`, `getRefRecExtent`, `selectConstant`, `selectRef`) are
translated from `ast/env.go`. -/

/-- Model of `types.Type`: the type lattice values `Get` constructs.
`none` in the option positions models Go's nil `types.Type`. -/
inductive Ty where
  | anyT
  | nullT
  | booleanT
  | numberT
  | stringT
  | arrayT (static : List (Option Ty)) (dynamic : Option Ty)
  | objectT (static : List (Json × Option Ty))
      (dynamic : Option (Option Ty × Option Ty))
  | setT (of : Option Ty)
  | orT (a b : Ty)

/-- The ground and non-ground `ast.Value` variants handled by
`TypeEnv.Get`: scalars, composites (including the lazy object, which
forces to an object), comprehensions (whose bodies are opaque to `Get`
and modelled by an identifier passed to the checker), refs (non-empty by
construction in `ast`), vars and calls. -/
inductive TEVal where
  | null
  | boolVal (b : Bool)
  | number (i : Int)
  | string (s : String)
  | array (elems : List TEVal)
  | object (fields : List (TEVal × TEVal))
  | lazyObject (fields : List (TEVal × TEVal))
  | set (elems : List TEVal)
  | arrayCompr (body : Nat) (term : TEVal)
  | objectCompr (body : Nat) (key : TEVal) (value : TEVal)
  | setCompr (body : Nat) (term : TEVal)
  | ref (head : TEVal) (tail : List TEVal)
  | varV (name : String)
  | call (args : List TEVal)

/-- An input to `TypeEnv.Get`: a value, a term wrapping a value (which
`Get` unwraps first), or any other dynamic type (which reaches the panic
branch). -/
inductive TEIn where
  | val (v : TEVal)
  | term (v : TEVal)
  | other

mutual

/-- Value equality (`util.HashMap`'s `valueEq` on `ast.Value`), used for
type-tree child lookup. -/
def teq : TEVal → TEVal → Bool
  | .null, .null => true
  | .boolVal a, .boolVal b => a == b
  | .number a, .number b => a == b
  | .string a, .string b => a == b
  | .array xs, .array ys => teqList xs ys
  | .object xs, .object ys => teqPairs xs ys
  | .lazyObject xs, .lazyObject ys => teqPairs xs ys
  | .set xs, .set ys => teqList xs ys
  | .arrayCompr b t, .arrayCompr c u => b == c && teq t u
  | .objectCompr b k v, .objectCompr c l w => b == c && teq k l && teq v w
  | .setCompr b t, .setCompr c u => b == c && teq t u
  | .ref h t, .ref i u => teq h i && teqList t u
  | .varV a, .varV b => a == b
  | .call a, .call b => teqList a b
  | _, _ => false
  termination_by structural a => a

/-- Elementwise equality of value sequences. -/
def teqList : List TEVal → List TEVal → Bool
  | [], [] => true
  | x :: xs, y :: ys => teq x y && teqList xs ys
  | _, _ => false
  termination_by structural a => a

/-- Elementwise equality of value pair sequences. -/
def teqPairs : List (TEVal × TEVal) → List (TEVal × TEVal) → Bool
  | [], [] => true
  | (k, v) :: xs, (l, w) :: ys => teq k l && teq v w && teqPairs xs ys
  | _, _ => false
  termination_by structural a => a

end

mutual

/-- `ast.IsConstant`: true for ground values built from scalars and
composites only. -/
def isConstant : TEVal → Bool
  | .null => true
  | .boolVal _ => true
  | .number _ => true
  | .string _ => true
  | .array xs => constList xs
  | .object xs => constPairs xs
  | .lazyObject xs => constPairs xs
  | .set xs => constList xs
  | _ => false
  termination_by structural a => a

/-- All elements constant. -/
def constList : List TEVal → Bool
  | [] => true
  | x :: xs => isConstant x && constList xs
  termination_by structural a => a

/-- All keys and values constant. -/
def constPairs : List (TEVal × TEVal) → Bool
  | [] => true
  | (k, v) :: xs => isConstant k && isConstant v && constPairs xs
  termination_by structural a => a

end

mutual

/-- `ast.JSON` (via `ValueToInterface`): convert a ground value to a
JSON value; fails on sets, comprehensions, refs, vars, calls and
non-string object keys. Always succeeds on scalars. -/
def toJSON : TEVal → Option Json
  | .null => some .null
  | .boolVal b => some (.bool b)
  | .number i => some (.num (.fin i))
  | .string s => some (.str s)
  | .array xs =>
    match toJSONList xs with
    | some js => some (.arr js)
    | none => none
  | .object kvs =>
    match toJSONPairs kvs with
    | some js => some (.obj js)
    | none => none
  | .lazyObject kvs =>
    match toJSONPairs kvs with
    | some js => some (.obj js)
    | none => none
  | _ => none
  termination_by structural a => a

/-- Convert every element. -/
def toJSONList : List TEVal → Option (List Json)
  | [] => some []
  | x :: xs =>
    match toJSON x, toJSONList xs with
    | some j, some js => some (j :: js)
    | _, _ => none
  termination_by structural a => a

/-- Convert every string-keyed field. -/
def toJSONPairs : List (TEVal × TEVal) → Option (List (String × Json))
  | [] => some []
  | (k, v) :: rest =>
    match k, toJSON v, toJSONPairs rest with
    | .string s, some j, some js => some ((s, j) :: js)
    | _, _, _ => none
  termination_by structural a => a

end

/-- Coarse model of `types.Select` (the `types` package is not among the
extracted sources; only totality matters for the claim). -/
def tySelect : Ty → Json → Option Ty
  | .anyT, _ => some .anyT
  | .arrayT _ dyn, _ => dyn
  | .objectT _ dyn, _ =>
    match dyn with
    | some (_, v) => v
    | none => none
  | .setT o, _ => o
  | _, _ => none

/-- Coarse model of `types.Values`. -/
def tyValues : Ty → Option Ty
  | .anyT => some .anyT
  | .arrayT _ dyn => dyn
  | .objectT _ dyn =>
    match dyn with
    | some (_, v) => v
    | none => none
  | .setT o => o
  | _ => none

/-- The type tree storing type information (`typeTreeNode`): an optional
leaf type and children keyed by values. -/
inductive TypeTree where
  | node (value : Option Ty) (children : List (TEVal × TypeTree))

/-- A type environment: the tree plus the optional `next` environment it
wraps. -/
inductive TEEnv where
  | mk (tree : TypeTree) (next : Option TEEnv)

/-- The tree of an environment. -/
def TEEnv.tree : TEEnv → TypeTree
  | .mk t _ => t

/-- Lookup a child by key (`typeTreeNode.Child`). -/
def childLookup : List (TEVal × TypeTree) → TEVal → Option TypeTree
  | [], _ => none
  | (k, t) :: rest, key => if teq k key then some t else childLookup rest key

/-- `typeTreeNode.Child` on a tree. -/
def treeChild : TypeTree → TEVal → Option TypeTree
  | .node _ children, key => childLookup children key

/-- The `Var` case of `Get` (`ast/env.go` lines 127-134): look the
variable up in the tree, else recurse into the wrapped environment. -/
def getVar : TEEnv → String → Option Ty
  | .mk tree next, x =>
    match treeChild tree (.varV x) with
    | some (.node value _) => value
    | none =>
      match next with
      | some e => getVar e x
      | none => none

/-- `RootDocumentNames.Contains(ref[0])`: the root document variables. -/
def isRootDocument : TEVal → Bool
  | .varV s => s == "input" || s == "data"
  | _ => false

mutual

/-- `getRefRecExtent` (`ast/env.go` lines 189-221): a leaf returns its
type, otherwise the children are collected into an object type; a
scalar key whose JSON conversion fails would reach the conversion panic,
modelled as the error result. -/
def getRefRecExtent : TypeTree → Except Unit Ty
  | .node (some t) _ => .ok t
  | .node none children =>
    match extentChildren children with
    | .ok props => .ok (.objectT props (some (some .stringT, some .anyT)))
    | .error e => .error e
  termination_by structural a => a

/-- Collect the extents of the children, keeping only scalar keys. -/
def extentChildren : List (TEVal × TypeTree) → Except Unit (List (Json × Option Ty))
  | [] => .ok []
  | (k, child) :: rest =>
    match getRefRecExtent child with
    | .error e => .error e
    | .ok tpe =>
      match extentChildren rest with
      | .error e => .error e
      | .ok props =>
        match k with
        | .string _ =>
          match toJSON k with
          | some pk => .ok ((pk, some tpe) :: props)
          | none => .error ()
        | .number _ =>
          match toJSON k with
          | some pk => .ok ((pk, some tpe) :: props)
          | none => .error ()
        | .boolVal _ =>
          match toJSON k with
          | some pk => .ok ((pk, some tpe) :: props)
          | none => .error ()
        | _ => .ok props
  termination_by structural a => a

end

/-- `selectConstant` (`ast/env.go` lines 423-429). -/
def selectConstant (t : Ty) (term : TEVal) : Option Ty :=
  match toJSON term with
  | some x => tySelect t x
  | none => none

/-- `selectRef` (`ast/env.go` lines 435-449). -/
def selectRef : Option Ty → List TEVal → Option Ty
  | t, [] => t
  | none, _ :: _ => none
  | some t, head :: tail =>
    match head with
    | .varV _ => selectRef (tyValues t) tail
    | .ref _ _ => selectRef (tyValues t) tail
    | .array _ => selectRef (tyValues t) tail
    | .object _ => selectRef (tyValues t) tail
    | .lazyObject _ => selectRef (tyValues t) tail
    | .set _ => selectRef (tyValues t) tail
    | _ => selectRef (selectConstant t head) tail

mutual

/-- `getRef` (`ast/env.go` lines 145-153): dispatch on whether the tree
has a child for the ref head. -/
def getRef (env : TEEnv) (head : TEVal) (tail : List TEVal) :
    Except Unit (Option Ty) :=
  match treeChild env.tree head with
  | none => getRefFallback env head tail
  | some node => getRefRec env node head tail tail
  termination_by (sizeOf env, 1, 0)

/-- `getRefRec` (`ast/env.go` lines 168-187): empty tail returns the
extent; a leaf selects into the leaf type; a non-constant next segment
selects into the extent; otherwise descend into the child or fall back. -/
def getRefRec (env : TEEnv) (node : TypeTree) (head : TEVal)
    (fullTail tail : List TEVal) : Except Unit (Option Ty) :=
  match tail with
  | [] =>
    match getRefRecExtent node with
    | .ok t => .ok (some t)
    | .error e => .error e
  | t0 :: rest =>
    match node with
    | .node (some val) _ => .ok (selectRef (some val) (t0 :: rest))
    | .node none children =>
      if isConstant t0 then
        match childLookup children t0 with
        | none => getRefFallback env head fullTail
        | some child => getRefRec env child head fullTail rest
      else
        match getRefRecExtent node with
        | .ok t => .ok (selectRef (some t) (t0 :: rest))
        | .error e => .error e
  termination_by (sizeOf env, 0, tail.length + 1)

/-- `getRefFallback` (`ast/env.go` lines 155-166): recurse into the
wrapped environment (where `Get` immediately re-dispatches to `getRef`),
else the root documents have type `Any` and unknown refs have no type. -/
def getRefFallback (env : TEEnv) (head : TEVal) (fullTail : List TEVal) :
    Except Unit (Option Ty) :=
  match env with
  | .mk _ (some nextEnv) => getRef nextEnv head fullTail
  | .mk _ none =>
    if isRootDocument head then .ok (some .anyT) else .ok none
  termination_by (sizeOf env, 0, 0)

end

/-- `types.Or` over possibly-nil types, as used by the `Set` case. -/
def orOpt : Option Ty → Option Ty → Option Ty
  | none, b => b
  | some a, none => some a
  | some a, some b => some (.orT a b)

mutual

/-- The body of `TypeEnv.Get` (`ast/env.go` lines 31-143) on an
`ast.Value`: `checker` abstracts `env.newChecker().CheckBody`, returning
the checked environment or `none` when there are check errors. -/
def getValue (checker : Nat → Option TEEnv) (env : TEEnv) :
    TEVal → Except Unit (Option Ty)
  | .null => .ok (some .nullT)
  | .boolVal _ => .ok (some .booleanT)
  | .number _ => .ok (some .numberT)
  | .string _ => .ok (some .stringT)
  | .array elems =>
    match getArrayElems checker env elems with
    | .error e => .error e
    | .ok static =>
      .ok (some (.arrayT static (if static.isEmpty then some .anyT else none)))
  | .lazyObject fields =>
    match getObjectFields checker env fields with
    | .error e => .error e
    | .ok (static, dyn) =>
      .ok (some (.objectT static
        (if static.isEmpty && dyn.isNone then some (some .anyT, some .anyT)
         else dyn)))
  | .object fields =>
    match getObjectFields checker env fields with
    | .error e => .error e
    | .ok (static, dyn) =>
      .ok (some (.objectT static
        (if static.isEmpty && dyn.isNone then some (some .anyT, some .anyT)
         else dyn)))
  | .set elems =>
    match foldSet checker env none elems with
    | .error e => .error e
    | .ok acc => .ok (some (.setT (some (acc.getD .anyT))))
  | .arrayCompr body term =>
    match checker body with
    | some cpy =>
      match getValue checker cpy term with
      | .error e => .error e
      | .ok t => .ok (some (.arrayT [] t))
    | none => .ok none
  | .objectCompr body key value =>
    match checker body with
    | some cpy =>
      match getValue checker cpy key with
      | .error e => .error e
      | .ok tk =>
        match getValue checker cpy value with
        | .error e => .error e
        | .ok tv => .ok (some (.objectT [] (some (tk, tv))))
    | none => .ok none
  | .setCompr body term =>
    match checker body with
    | some cpy =>
      match getValue checker cpy term with
      | .error e => .error e
      | .ok t => .ok (some (.setT t))
    | none => .ok none
  | .ref head tail => getRef env head tail
  | .varV s => .ok (getVar env s)
  | .call _ => .ok none
  termination_by structural v => v

/-- The `*Array` case: the static element types in order. -/
def getArrayElems (checker : Nat → Option TEEnv) (env : TEEnv) :
    List TEVal → Except Unit (List (Option Ty))
  | [] => .ok []
  | x :: xs =>
    match getValue checker env x with
    | .error e => .error e
    | .ok t =>
      match getArrayElems checker env xs with
      | .error e => .error e
      | .ok ts => .ok (t :: ts)
  termination_by structural l => l

/-- The `*object` case's `Foreach` loop: constant keys with a JSON form
become static properties; any other pair overwrites the dynamic
property, the last such pair winning. -/
def getObjectFields (checker : Nat → Option TEEnv) (env : TEEnv) :
    List (TEVal × TEVal) →
    Except Unit (List (Json × Option Ty) × Option (Option Ty × Option Ty))
  | [] => .ok ([], none)
  | (k, v) :: rest =>
    match (if isConstant k then toJSON k else none) with
    | some kj =>
      match getValue checker env v with
      | .error e => .error e
      | .ok t =>
        match getObjectFields checker env rest with
        | .error e => .error e
        | .ok (stat, dyn) => .ok ((kj, t) :: stat, dyn)
    | none =>
      match getValue checker env k with
      | .error e => .error e
      | .ok tk =>
        match getValue checker env v with
        | .error e => .error e
        | .ok tv =>
          match getObjectFields checker env rest with
          | .error e => .error e
          | .ok (stat, dyn) =>
            .ok (stat, match dyn with
              | some d => some d
              | none => some (tk, tv))
  termination_by structural l => l

/-- The `Set` case's `Foreach` loop: fold the element types with
`types.Or`. -/
def foldSet (checker : Nat → Option TEEnv) (env : TEEnv)
    (acc : Option Ty) : List TEVal → Except Unit (Option Ty)
  | [] => .ok acc
  | e :: rest =>
    match getValue checker env e with
    | .error err => .error err
    | .ok t => foldSet checker env (orOpt acc t) rest
  termination_by structural l => l

end

/-- `TypeEnv.Get` (`ast/env.go` lines 31-143): unwrap terms, dispatch on
the value variant; any other input reaches the
`panic("unreachable")` default branch, modelled as the error result. -/
def TypeEnvGet (checker : Nat → Option TEEnv) (env : TEEnv) :
    TEIn → Except Unit (Option Ty)
  | .val v => getValue checker env v
  | .term v => getValue checker env v
  | .other => .error ()

theorem lookupKV_setKV_self (fields : List (String × Json)) (k : String) (v : Json) :
    lookupKV (setKV fields k v) k = some v := by
  induction fields with
  | nil => simp [setKV, lookupKV]
  | cons hd tl ih =>
    obtain ⟨k', w⟩ := hd
    by_cases hk : k' = k
    · simp [setKV, hk, lookupKV]
    · simp [setKV, hk, lookupKV, ih]

theorem getPath_addPath (p : List String) (d v : Json) :
    getPath (addPath d p v) p = some v := by
  induction p generalizing d with
  | nil => simp [addPath, getPath]
  | cons k p ih =>
    cases d with
    | obj fields => simp [addPath, getPath, lookupKV_setKV_self, ih]
    | null => simp [addPath, getPath, lookupKV, ih]
    | bool b => simp [addPath, getPath, lookupKV, ih]
    | num n => simp [addPath, getPath, lookupKV, ih]
    | str s => simp [addPath, getPath, lookupKV, ih]
    | arr elems => simp [addPath, getPath, lookupKV, ih]

/-- C1: for every path `P` and every JSON value `V` containing no
non-finite numbers, performing `Write(Add, P, V)` in a write transaction
and committing, then reading `P` in a later transaction, returns a value
JSON-round-trip equal to `V`. -/
theorem write_add_commit_then_read_roundtrip (s : DiskStore) (P : List String)
    (V : Json) (hV : finiteNums V = true) :
    ∃ t₁ : Txn, (newTransaction s true).writePath .add P V = .ok t₁ ∧
      (newTransaction (commitTxn s t₁).1 false).readPath P = .ok V := by
  refine ⟨{ newTransaction s true with
              snapshot := addPath s.doc P V, dataChangedFlag := true }, ?_, ?_⟩
  · simp [newTransaction, Txn.writePath, hV]
  · simp [newTransaction, commitTxn, Txn.readPath, getPath_addPath]

/-- Witness for C1: a concrete write/commit/read round trip. -/
theorem write_add_commit_then_read_roundtrip_witness :
    finiteNums (.str "bar") = true ∧
    (∃ t₁ : Txn,
      (newTransaction ⟨.obj [], [], 0⟩ true).writePath .add ["foo"] (.str "bar") = .ok t₁ ∧
      (newTransaction (commitTxn ⟨.obj [], [], 0⟩ t₁).1 false).readPath ["foo"] =
        .ok (.str "bar")) :=
  ⟨rfl, write_add_commit_then_read_roundtrip ⟨.obj [], [], 0⟩ ["foo"] (.str "bar") rfl⟩

/-- C5: in a live write transaction, `Remove` at a non-existent path fails
with `NOT_FOUND`, `Replace` at a non-existent path fails, and `Add` at an
existing path overwrites the value without error. -/
theorem write_op_error_semantics (t : Txn) (hstale : t.stale = false)
    (hw : t.isWrite = true) (P : List String) (V u : Json) :
    (getPath t.snapshot P = none → t.writePath .remove P u = .error .notFound) ∧
    (getPath t.snapshot P = none → ∃ e, t.writePath .replace P V = .error e) ∧
    (∀ w, getPath t.snapshot P = some w → finiteNums V = true →
      ∃ t' : Txn, t.writePath .add P V = .ok t' ∧ t'.readPath P = .ok V) := by
  refine ⟨?_, ?_, ?_⟩
  · intro hmiss
    simp [Txn.writePath, hstale, hw, hmiss]
  · intro hmiss
    by_cases hV : finiteNums V = false
    · exact ⟨.internalErr, by simp [Txn.writePath, hstale, hw, hV]⟩
    · exact ⟨.notFound, by simp [Txn.writePath, hstale, hw, hV, hmiss]⟩
  · intro w hhit hV
    refine ⟨{ t with snapshot := addPath t.snapshot P V, dataChangedFlag := true },
      ?_, ?_⟩
    · simp [Txn.writePath, hstale, hw, hV]
    · simp [Txn.readPath, hstale, getPath_addPath]

/-- Witness for C5: the three write-operation behaviours at concrete
inputs, on a fresh write transaction over a store holding `{"a": null}`. -/
theorem write_op_error_semantics_witness :
    ((newTransaction ⟨.obj [("a", .null)], [], 0⟩ true).writePath .remove ["b"] .null =
        .error .notFound) ∧
    (∃ e, (newTransaction ⟨.obj [("a", .null)], [], 0⟩ true).writePath .replace ["b"]
        (.str "x") = .error e) ∧
    (∃ t' : Txn,
      (newTransaction ⟨.obj [("a", .null)], [], 0⟩ true).writePath .add ["a"]
        (.str "y") = .ok t' ∧ t'.readPath ["a"] = .ok (.str "y")) :=
  ⟨(write_op_error_semantics (newTransaction ⟨.obj [("a", .null)], [], 0⟩ true)
      rfl rfl ["b"] (.str "x") .null).1 rfl,
   (write_op_error_semantics (newTransaction ⟨.obj [("a", .null)], [], 0⟩ true)
      rfl rfl ["b"] (.str "x") .null).2.1 rfl,
   (write_op_error_semantics (newTransaction ⟨.obj [("a", .null)], [], 0⟩ true)
      rfl rfl ["a"] (.str "y") .null).2.2 .null rfl rfl⟩

/-- C6: reopening a store whose persisted metadata has a non-empty
partition list, and which contains data, with a declared partition set
that omits one of the persisted partitions fails with `INTERNAL` (the
store does not open). -/
theorem open_with_removed_partition_internal (declared : List Pattern)
    (ps : PersistedState) (md : StoreMetadata) (hmd : ps.metadata = some md)
    (hne : md.partitions ≠ []) (hdata : ps.dataPaths ≠ []) (q : Pattern)
    (hq : q ∈ md.partitions)
    (homit : q ∉ effectivePartitions declared) :
    newStore declared ps = .error .internalErr := by
  unfold newStore
  by_cases hov1 : overlapAny (normalizePartitions declared) = true
  · rw [if_pos hov1]
  · rw [if_neg hov1]
    by_cases hov2 : overlapAny (effectivePartitions declared) = true
    · rw [if_pos hov2]
    · rw [if_neg hov2, hmd]
      dsimp only
      have hrem : pathDiff md.partitions (effectivePartitions declared) ≠ [] := by
        intro hempty
        have hqmem : q ∈ pathDiff md.partitions (effectivePartitions declared) := by
          rw [pathDiff, List.mem_filter]
          exact ⟨hq, by simpa using homit⟩
        rw [hempty] at hqmem
        exact absurd hqmem (List.not_mem_nil q)
      by_cases hsv : md.schemaVersion = supportedSchemaVersion
      · rw [if_neg (not_not.mpr hsv), if_pos hrem]
      · rw [if_pos hsv]

/-- Witness for C6: reopening with `{}` a store persisted with partition
`/tenants/*` and containing data fails with `INTERNAL`. -/
theorem open_with_removed_partition_internal_witness :
    newStore []
      { metadata := some
          { schemaVersion := 1
            partitionVersion := 1
            partitions := [[.lit "tenants", .star]] }
        dataPaths := [["tenants", "a"]] } = .error .internalErr :=
  open_with_removed_partition_internal [] _ _ rfl (by decide) (by decide)
    [.lit "tenants", .star] (by decide) (by decide)

/-- Every callback in a dispatch list that leaves the compiler
reference alone yields a dispatch that leaves the compiler reference
alone. -/
theorem dispatch_preserves_compiler {C : Type} (e : TriggerEvent) (v : DiskStore) :
    ∀ (cbs : List (TriggerEvent → DiskStore → Manager C → Manager C)),
      (∀ cb ∈ cbs, ∀ s : Manager C, (cb e v s).compiler = s.compiler) →
      ∀ s : Manager C, (dispatchTriggers cbs e v s).compiler = s.compiler
  | [] => fun _ _ => rfl
  | cb :: rest => by
    intro h s
    show (dispatchTriggers rest e v (cb e v s)).compiler = s.compiler
    rw [dispatch_preserves_compiler e v rest
      (fun cb' hm => h cb' (List.mem_cons_of_mem cb hm)) (cb e v s)]
    exact h cb (List.mem_cons_self cb rest) s

/-- On a policy-change event, dispatching a list that contains the
manager callback — or starting from a state whose compiler is already
the loaded one — ends with the compiler loaded from the view, provided
every other callback leaves the compiler reference alone. -/
theorem dispatch_sets_compiler {C : Type} (compile : List (String × String) → C)
    (e : TriggerEvent) (v : DiskStore) (he : e.policyChanged = true) :
    ∀ (cbs : List (TriggerEvent → DiskStore → Manager C → Manager C)),
      (∀ cb ∈ cbs, cb = managerOnCommit compile ∨
        ∀ s : Manager C, (cb e v s).compiler = s.compiler) →
      ∀ s : Manager C,
        (managerOnCommit compile ∈ cbs ∨
          s.compiler = some (loadCompilerFromStore compile v)) →
        (dispatchTriggers cbs e v s).compiler =
          some (loadCompilerFromStore compile v)
  | [] => by
    intro _ s hs
    rcases hs with hmem | hset
    · exact absurd hmem (List.not_mem_nil _)
    · exact hset
  | cb :: rest => by
    intro h s hs
    have hrest := fun cb' hm => h cb' (List.mem_cons_of_mem cb hm)
    show (dispatchTriggers rest e v (cb e v s)).compiler = _
    rcases h cb (List.mem_cons_self cb rest) with hcb | hpres
    · refine dispatch_sets_compiler compile e v he rest hrest (cb e v s) (Or.inr ?_)
      rw [hcb]
      simp [managerOnCommit, he]
    · rcases hs with hmem | hset
      · rcases List.mem_cons.mp hmem with heq | hmem2
        · refine dispatch_sets_compiler compile e v he rest hrest (cb e v s) (Or.inr ?_)
          rw [← heq]
          simp [managerOnCommit, he]
        · exact dispatch_sets_compiler compile e v he rest hrest (cb e v s) (Or.inl hmem2)
      · refine dispatch_sets_compiler compile e v he rest hrest (cb e v s) (Or.inr ?_)
        rw [hpres s, hset]

/-- C2: after a write transaction commits, `Store.Commit` runs every
registered trigger callback with the commit's `TriggerEvent` and a
read-only view of the committed state; when the manager's on-commit
callback is among the registered triggers — in any position and any
iteration order — and the remaining triggers leave the compiler
reference alone, the manager's compiler is replaced by one built from
the policies read from the committed store if and only if the event
satisfies `PolicyChanged()`; when `PolicyChanged()` is false the
compiler reference is unchanged. -/
theorem manager_compiler_swap_iff {C : Type}
    (compile : List (String × String) → C) (ts : TriggerStore (Manager C))
    (t : Txn) (m : Manager C)
    (hmem : managerOnCommit compile ∈ ts.triggers)
    (hoth : ∀ cb ∈ ts.triggers, cb = managerOnCommit compile ∨
        ∀ (e : TriggerEvent) (v : DiskStore) (s : Manager C),
          (cb e v s).compiler = s.compiler) :
    ((commitTxn ts.store t).2.policyChanged = true →
      (commitAndDispatch ts t m).2.2.compiler =
        some (loadCompilerFromStore compile (commitAndDispatch ts t m).1.store)) ∧
    ((commitTxn ts.store t).2.policyChanged = false →
      (commitAndDispatch ts t m).2.2.compiler = m.compiler) := by
  constructor
  · intro hpc
    exact dispatch_sets_compiler compile (commitTxn ts.store t).2
      (commitTxn ts.store t).1 hpc ts.triggers
      (fun cb hm => (hoth cb hm).imp id (fun hp s => hp _ _ s)) m (Or.inl hmem)
  · intro hpc
    refine dispatch_preserves_compiler (commitTxn ts.store t).2
      (commitTxn ts.store t).1 ts.triggers ?_ m
    intro cb hm s
    rcases hoth cb hm with hcb | hp
    · rw [hcb]
      simp [managerOnCommit, hpc]
    · exact hp _ _ s

/-- Witness for C2: a policy upsert committed through a store with two
registered triggers — a callback that leaves the manager alone and the
manager's on-commit callback — swaps in the compiler built from the
committed policies; `compile` is instantiated with the identity on the
policy list. -/
theorem manager_compiler_swap_iff_witness :
    (newTransaction ⟨.obj [], [], 0⟩ true).upsertPolicy "p" "package x" =
      .ok { txnId := 0, isWrite := true, stale := false, snapshot := .obj []
            policySnapshot := [("p", "package x")], dataChangedFlag := false
            policyChangedFlag := true } ∧
    (commitAndDispatch
        (σ := Manager (List (String × String)))
        { store := ⟨.obj [], [], 0⟩
          triggers := [fun _ _ s => s, managerOnCommit id] }
        { txnId := 0, isWrite := true, stale := false, snapshot := .obj []
          policySnapshot := [("p", "package x")], dataChangedFlag := false
          policyChangedFlag := true }
        { compiler := none }).2.2.compiler = some [("p", "package x")] := by
  constructor
  · rfl
  · have hoth : ∀ cb ∈ ([fun _ _ s => s, managerOnCommit id] :
        List (TriggerEvent → DiskStore → Manager (List (String × String)) →
          Manager (List (String × String)))),
        cb = managerOnCommit id ∨
          ∀ (e : TriggerEvent) (v : DiskStore)
            (s : Manager (List (String × String))),
            (cb e v s).compiler = s.compiler := by
      intro cb hcb
      rcases List.mem_cons.mp hcb with h | h
      · exact Or.inr (fun e v s => by rw [h])
      · rcases List.mem_cons.mp h with h2 | h2
        · exact Or.inl h2
        · exact absurd h2 (List.not_mem_nil _)
    have hmain := manager_compiler_swap_iff (C := List (String × String)) id
      { store := ⟨.obj [], [], 0⟩
        triggers := [fun _ _ s => s, managerOnCommit id] }
      { txnId := 0, isWrite := true, stale := false, snapshot := .obj []
        policySnapshot := [("p", "package x")], dataChangedFlag := false
        policyChangedFlag := true }
      { compiler := none }
      (List.mem_cons_of_mem _ (List.mem_cons_self _ _)) hoth
    exact hmain.1 rfl

/-- C10: for every directory containing neither a `bundlePackage.json`
file nor a `bundle.tar.gz` file, `LoadBundleFromDisk` returns a nil
bundle together with a nil error. -/
theorem load_bundle_from_disk_absent_nil_nil {β : Type} (d : BundleDir β)
    (h1 : d.pkgStat = .notExist) (h2 : d.tarStat = .notExist) :
    LoadBundleFromDisk d = (none, none) := by
  simp [LoadBundleFromDisk, h1, h2]

/-- Witness for C10 at a concrete empty directory. -/
theorem load_bundle_from_disk_absent_nil_nil_witness :
    LoadBundleFromDisk
      (β := Unit) ⟨.notExist, .notExist, .readFailed, .readFailed⟩ = (none, none) :=
  load_bundle_from_disk_absent_nil_nil ⟨.notExist, .notExist, .readFailed, .readFailed⟩
    rfl rfl

/-- Counterexample for C3: the registry writes performed by
`registerBuiltinFromFile` (reached from the exported
`RegisterSharedObjectsFromDir`) and by `TestRunnerCancel`
(`topdown/net_test.go` lines 221-229) do not happen inside an `init`
function, so not every write to the process-wide registries happens
during package initialization. -/
theorem registry_write_outside_init :
    RegistryWriteSite.inInitFunction .builtinFromFile = false ∧
    RegistryWriteSite.inInitFunction .testRunnerCancel = false := by decide

/-- C3 (amended): every write to the process-wide builtin and plugin
registries in the extracted sources happens inside a package `init`
function, inside the shared-object registration helpers reached via the
exported `RegisterSharedObjectsFromDir` entry point, or inside a test
function executed at test run time (`TestRunnerCancel`); no other
operation mutates the registries. -/
theorem registry_writes_init_shared_objects_or_test :
    ∀ s : RegistryWriteSite,
      (s.inInitFunction || s.viaRegisterSharedObjects || s.inTestFunction) = true := by
  intro s
  cases s <;> rfl

theorem cmpLO_swap {α : Type} [LinearOrder α] (a b : α) :
    (cmpLO a b).swap = cmpLO b a := by
  unfold cmpLO
  rcases lt_trichotomy a b with h | h | h
  · rw [if_pos h, if_neg (lt_asymm h), if_neg (fun hh => absurd hh.symm (ne_of_lt h))]
    rfl
  · rw [if_neg (by simp [h]), if_pos h, if_neg (by simp [h]), if_pos h.symm]
    rfl
  · rw [if_neg (lt_asymm h), if_neg (fun hh => absurd hh (ne_of_gt h)), if_pos h]
    rfl

theorem cmpLO_eq_iff {α : Type} [LinearOrder α] {a b : α} :
    cmpLO a b = .eq ↔ a = b := by
  unfold cmpLO
  rcases lt_trichotomy a b with h | h | h
  · simp [h, ne_of_lt h]
  · simp [h, lt_irrefl]
  · simp [lt_asymm h, ne_of_gt h]

theorem cmpLO_le_trans {α : Type} [LinearOrder α] {a b c : α}
    (h₁ : cmpLO a b ≠ .gt) (h₂ : cmpLO b c ≠ .gt) : cmpLO a c ≠ .gt := by
  unfold cmpLO at *
  rcases lt_trichotomy a b with hab | hab | hab <;>
    rcases lt_trichotomy b c with hbc | hbc | hbc <;>
      first
        | (subst hab; simp_all)
        | (subst hbc; simp_all)
        | (have hac : a < c := lt_trans hab hbc
           simp [hac])
        | simp_all [lt_asymm]


theorem ordering_swap_then (a b : Ordering) : (a.then b).swap = a.swap.then b.swap := by
  cases a <;> cases b <;> rfl

mutual

theorem compareV_swap (a b : AstV) : (compareV a b).swap = compareV b a := by
  cases a with
  | null => cases b <;> simp only [compareV] <;> first | rfl | rw [cmpLO_swap]
  | bool x => cases b <;> simp only [compareV] <;> first | rfl | rw [cmpLO_swap]
  | num x => cases b <;> simp only [compareV] <;> first | rfl | rw [cmpLO_swap]
  | str x => cases b <;> simp only [compareV] <;> first | rfl | rw [cmpLO_swap]
  | arr xs =>
    cases b with
    | arr ys => simp only [compareV]; exact compareL_swap xs ys
    | null => simp only [compareV]; rw [cmpLO_swap]
    | bool y => simp only [compareV]; rw [cmpLO_swap]
    | num y => simp only [compareV]; rw [cmpLO_swap]
    | str y => simp only [compareV]; rw [cmpLO_swap]
    | obj ys => simp only [compareV]; rw [cmpLO_swap]
    | set ys => simp only [compareV]; rw [cmpLO_swap]
  | obj xs =>
    cases b with
    | obj ys => simp only [compareV]; exact compareO_swap xs ys
    | null => simp only [compareV]; rw [cmpLO_swap]
    | bool y => simp only [compareV]; rw [cmpLO_swap]
    | num y => simp only [compareV]; rw [cmpLO_swap]
    | str y => simp only [compareV]; rw [cmpLO_swap]
    | arr ys => simp only [compareV]; rw [cmpLO_swap]
    | set ys => simp only [compareV]; rw [cmpLO_swap]
  | set xs =>
    cases b with
    | set ys => simp only [compareV]; exact compareL_swap xs ys
    | null => simp only [compareV]; rw [cmpLO_swap]
    | bool y => simp only [compareV]; rw [cmpLO_swap]
    | num y => simp only [compareV]; rw [cmpLO_swap]
    | str y => simp only [compareV]; rw [cmpLO_swap]
    | arr ys => simp only [compareV]; rw [cmpLO_swap]
    | obj ys => simp only [compareV]; rw [cmpLO_swap]
  termination_by sizeOf a

theorem compareL_swap (xs ys : List AstV) : (compareL xs ys).swap = compareL ys xs := by
  cases xs with
  | nil => cases ys <;> rfl
  | cons x xs =>
    cases ys with
    | nil => rfl
    | cons y ys =>
      simp only [compareL, ordering_swap_then]
      rw [compareV_swap x y, compareL_swap xs ys]
  termination_by sizeOf xs

theorem compareO_swap (xs ys : List (String × AstV)) :
    (compareO xs ys).swap = compareO ys xs := by
  cases xs with
  | nil => cases ys <;> rfl
  | cons p xs =>
    obtain ⟨k₁, v₁⟩ := p
    cases ys with
    | nil => rfl
    | cons q ys =>
      obtain ⟨k₂, v₂⟩ := q
      simp only [compareO, ordering_swap_then]
      rw [cmpLO_swap, compareV_swap v₁ v₂, compareO_swap xs ys]
  termination_by sizeOf xs

end




theorem then_le_trans_aux {c₁ c₂ c₃ r₁ r₂ r₃ : Ordering}
    (hA : c₁ ≠ .gt → c₂ ≠ .gt → c₃ ≠ .gt)
    (hB : c₂ ≠ .gt → c₃.swap ≠ .gt → c₁.swap ≠ .gt)
    (hC : c₃.swap ≠ .gt → c₁ ≠ .gt → c₂.swap ≠ .gt)
    (htail : r₁ ≠ .gt → r₂ ≠ .gt → r₃ ≠ .gt)
    (h₁ : c₁.then r₁ ≠ .gt) (h₂ : c₂.then r₂ ≠ .gt) :
    c₃.then r₃ ≠ .gt := by
  cases c₁ <;> cases c₂ <;> cases c₃ <;>
    simp_all [Ordering.then, Ordering.swap]

theorem pair_le_trans {α : Type} [LinearOrder α] {k₁ k₂ k₃ : α}
    {d₁ d₂ d₃ : Ordering}
    (hd : d₁ ≠ .gt → d₂ ≠ .gt → d₃ ≠ .gt)
    (hdB : d₂ ≠ .gt → d₃.swap ≠ .gt → d₁.swap ≠ .gt)
    (hdC : d₃.swap ≠ .gt → d₁ ≠ .gt → d₂.swap ≠ .gt)
    (h₁ : (cmpLO k₁ k₂).then d₁ ≠ .gt) (h₂ : (cmpLO k₂ k₃).then d₂ ≠ .gt) :
    (cmpLO k₁ k₃).then d₃ ≠ .gt := by
  refine then_le_trans_aux ?_ ?_ ?_ hd h₁ h₂
  · exact fun hk1 hk2 => cmpLO_le_trans hk1 hk2
  · intro hk23 hk31
    rw [cmpLO_swap] at hk31 ⊢
    exact cmpLO_le_trans hk23 hk31
  · intro hk31 hk12
    rw [cmpLO_swap] at hk31 ⊢
    exact cmpLO_le_trans hk31 hk12

theorem compareV_rank_lt {a b : AstV} (h : rank a < rank b) :
    compareV a b = .lt := by
  cases a <;> cases b <;> first | rfl | (simp only [rank] at h; omega)

theorem compareV_rank_le {a b : AstV} (h : compareV a b ≠ .gt) :
    rank a ≤ rank b := by
  by_contra hlt
  push_neg at hlt
  have h1 : compareV b a = .lt := compareV_rank_lt hlt
  have h2 := compareV_swap b a
  rw [h1] at h2
  exact h h2.symm

theorem rank_form_null {b : AstV} (h : rank b = 0) : b = .null := by
  cases b <;> first | rfl | (simp only [rank] at h; omega)

theorem rank_form_bool {b : AstV} (h : rank b = 1) : ∃ x, b = .bool x := by
  cases b <;> first | exact ⟨_, rfl⟩ | (simp only [rank] at h; omega)

theorem rank_form_num {b : AstV} (h : rank b = 2) : ∃ x, b = .num x := by
  cases b <;> first | exact ⟨_, rfl⟩ | (simp only [rank] at h; omega)

theorem rank_form_str {b : AstV} (h : rank b = 3) : ∃ x, b = .str x := by
  cases b <;> first | exact ⟨_, rfl⟩ | (simp only [rank] at h; omega)

theorem rank_form_arr {b : AstV} (h : rank b = 4) : ∃ xs, b = .arr xs := by
  cases b <;> first | exact ⟨_, rfl⟩ | (simp only [rank] at h; omega)

theorem rank_form_obj {b : AstV} (h : rank b = 5) : ∃ xs, b = .obj xs := by
  cases b <;> first | exact ⟨_, rfl⟩ | (simp only [rank] at h; omega)

theorem rank_form_set {b : AstV} (h : rank b = 6) : ∃ xs, b = .set xs := by
  cases b <;> first | exact ⟨_, rfl⟩ | (simp only [rank] at h; omega)

mutual

theorem compareV_le_trans (a b c : AstV) (h₁ : compareV a b ≠ .gt)
    (h₂ : compareV b c ≠ .gt) : compareV a c ≠ .gt := by
  have hab := compareV_rank_le h₁
  have hbc := compareV_rank_le h₂
  rcases Nat.lt_trichotomy (rank a) (rank c) with hr | hr | hr
  · rw [compareV_rank_lt hr]
    simp
  · cases a with
    | null =>
      simp only [rank] at hr hab
      obtain rfl := rank_form_null hr.symm
      simp only [rank] at hbc
      obtain rfl := rank_form_null (Nat.le_zero.mp hbc)
      simp [compareV]
    | bool x =>
      simp only [rank] at hr hab
      obtain ⟨z, rfl⟩ := rank_form_bool hr.symm
      simp only [rank] at hbc
      obtain ⟨y, rfl⟩ := rank_form_bool (Nat.le_antisymm hbc hab)
      simp only [compareV] at h₁ h₂ ⊢
      exact cmpLO_le_trans h₁ h₂
    | num x =>
      simp only [rank] at hr hab
      obtain ⟨z, rfl⟩ := rank_form_num hr.symm
      simp only [rank] at hbc
      obtain ⟨y, rfl⟩ := rank_form_num (Nat.le_antisymm hbc hab)
      simp only [compareV] at h₁ h₂ ⊢
      exact cmpLO_le_trans h₁ h₂
    | str x =>
      simp only [rank] at hr hab
      obtain ⟨z, rfl⟩ := rank_form_str hr.symm
      simp only [rank] at hbc
      obtain ⟨y, rfl⟩ := rank_form_str (Nat.le_antisymm hbc hab)
      simp only [compareV] at h₁ h₂ ⊢
      exact cmpLO_le_trans h₁ h₂
    | arr xs =>
      simp only [rank] at hr hab
      obtain ⟨zs, rfl⟩ := rank_form_arr hr.symm
      simp only [rank] at hbc
      obtain ⟨ys, rfl⟩ := rank_form_arr (Nat.le_antisymm hbc hab)
      simp only [compareV] at h₁ h₂ ⊢
      exact compareL_le_trans xs ys zs h₁ h₂
    | obj xs =>
      simp only [rank] at hr hab
      obtain ⟨zs, rfl⟩ := rank_form_obj hr.symm
      simp only [rank] at hbc
      obtain ⟨ys, rfl⟩ := rank_form_obj (Nat.le_antisymm hbc hab)
      simp only [compareV] at h₁ h₂ ⊢
      exact compareO_le_trans xs ys zs h₁ h₂
    | set xs =>
      simp only [rank] at hr hab
      obtain ⟨zs, rfl⟩ := rank_form_set hr.symm
      simp only [rank] at hbc
      obtain ⟨ys, rfl⟩ := rank_form_set (Nat.le_antisymm hbc hab)
      simp only [compareV] at h₁ h₂ ⊢
      exact compareL_le_trans xs ys zs h₁ h₂
  · omega
  termination_by sizeOf a + sizeOf b + sizeOf c

theorem compareL_le_trans (xs ys zs : List AstV) (h₁ : compareL xs ys ≠ .gt)
    (h₂ : compareL ys zs ≠ .gt) : compareL xs zs ≠ .gt := by
  cases xs with
  | nil =>
    cases zs with
    | nil => simp [compareL]
    | cons z zs => simp [compareL]
  | cons x xs =>
    cases ys with
    | nil => simp [compareL] at h₁
    | cons y ys =>
      cases zs with
      | nil => simp [compareL] at h₂
      | cons z zs =>
        simp only [compareL] at h₁ h₂ ⊢
        refine then_le_trans_aux ?_ ?_ ?_ ?_ h₁ h₂
        · exact fun u v => compareV_le_trans x y z u v
        · intro hyz hzx
          rw [compareV_swap] at hzx ⊢
          exact compareV_le_trans y z x hyz hzx
        · intro hzx hxy
          rw [compareV_swap] at hzx ⊢
          exact compareV_le_trans z x y hzx hxy
        · exact fun u v => compareL_le_trans xs ys zs u v
  termination_by sizeOf xs + sizeOf ys + sizeOf zs

theorem compareO_le_trans : ∀ (xs ys zs : List (String × AstV)),
    compareO xs ys ≠ .gt → compareO ys zs ≠ .gt → compareO xs zs ≠ .gt
  | [], _, [], _, _ => by simp [compareO]
  | [], _, _ :: _, _, _ => by simp [compareO]
  | _ :: _, [], _, h₁, _ => by simp [compareO] at h₁
  | _ :: _, _ :: _, [], _, h₂ => by simp [compareO] at h₂
  | (k₁, v₁) :: xs, (k₂, v₂) :: ys, (k₃, v₃) :: zs, h₁, h₂ => by
        simp only [compareO] at h₁ h₂ ⊢
        refine then_le_trans_aux ?_ ?_ ?_ ?_ h₁ h₂
        · intro p12 p23
          refine pair_le_trans ?_ ?_ ?_ p12 p23
          · exact fun u v => compareV_le_trans v₁ v₂ v₃ u v
          · intro hv23 hv31
            rw [compareV_swap] at hv31 ⊢
            exact compareV_le_trans v₂ v₃ v₁ hv23 hv31
          · intro hv31 hv12
            rw [compareV_swap] at hv31 ⊢
            exact compareV_le_trans v₃ v₁ v₂ hv31 hv12
        · intro p23 p31
          rw [ordering_swap_then, cmpLO_swap, compareV_swap] at p31 ⊢
          refine pair_le_trans ?_ ?_ ?_ p23 p31
          · exact fun u v => compareV_le_trans v₂ v₃ v₁ u v
          · intro hd2 hd3s
            rw [compareV_swap] at hd3s ⊢
            exact compareV_le_trans v₃ v₁ v₂ hd2 hd3s
          · intro hd3s hd1
            rw [compareV_swap] at hd3s ⊢
            exact compareV_le_trans v₁ v₂ v₃ hd3s hd1
        · intro p31 p12
          rw [ordering_swap_then, cmpLO_swap, compareV_swap] at p31 ⊢
          refine pair_le_trans ?_ ?_ ?_ p31 p12
          · exact fun u v => compareV_le_trans v₃ v₁ v₂ u v
          · intro hd2 hd3s
            rw [compareV_swap] at hd3s ⊢
            exact compareV_le_trans v₁ v₂ v₃ hd2 hd3s
          · intro hd3s hd1
            rw [compareV_swap] at hd3s ⊢
            exact compareV_le_trans v₂ v₃ v₁ hd3s hd1
        · exact fun u v => compareO_le_trans xs ys zs u v
  termination_by xs ys zs => sizeOf xs + sizeOf ys + sizeOf zs
  decreasing_by all_goals (simp_wf; omega)

end

theorem compareV_self (a : AstV) : compareV a a = .eq := by
  have h := compareV_swap a a
  cases hc : compareV a a with
  | lt => rw [hc] at h; exact absurd h (by decide)
  | eq => rfl
  | gt => rw [hc] at h; exact absurd h (by decide)

theorem compareV_null_le (x : AstV) : compareV AstV.null x ≠ .gt := by
  cases x with
  | null => rw [show compareV AstV.null AstV.null = .eq from rfl]; decide
  | bool b => rw [show compareV AstV.null (AstV.bool b) = .lt from rfl]; decide
  | num i => rw [show compareV AstV.null (AstV.num i) = .lt from rfl]; decide
  | str s => rw [show compareV AstV.null (AstV.str s) = .lt from rfl]; decide
  | arr xs => rw [show compareV AstV.null (AstV.arr xs) = .lt from rfl]; decide
  | obj xs => rw [show compareV AstV.null (AstV.obj xs) = .lt from rfl]; decide
  | set xs => rw [show compareV AstV.null (AstV.set xs) = .lt from rfl]; decide

theorem compareV_null_eq_iff (m : AstV) : compareV m .null = .eq ↔ m = .null := by
  cases m with
  | null => simp [show compareV AstV.null AstV.null = Ordering.eq from rfl]
  | bool b =>
    rw [show compareV (AstV.bool b) .null = .gt from rfl]
    simp
  | num i =>
    rw [show compareV (AstV.num i) .null = .gt from rfl]
    simp
  | str s =>
    rw [show compareV (AstV.str s) .null = .gt from rfl]
    simp
  | arr xs =>
    rw [show compareV (AstV.arr xs) .null = .gt from rfl]
    simp
  | obj xs =>
    rw [show compareV (AstV.obj xs) .null = .gt from rfl]
    simp
  | set xs =>
    rw [show compareV (AstV.set xs) .null = .gt from rfl]
    simp

theorem astEqB_boolTrue_iff (t : AstV) : astEqB t (.bool true) = true ↔ t = .bool true := by
  cases t with
  | null => simp [astEqB, show compareV AstV.null (.bool true) = .lt from rfl]
  | bool b =>
    cases b with
    | true => simp [astEqB, show compareV (AstV.bool true) (.bool true) = .eq from rfl]
    | false => simp [astEqB, show compareV (AstV.bool false) (.bool true) = .lt from rfl]
  | num i => simp [astEqB, show compareV (AstV.num i) (.bool true) = .gt from rfl]
  | str s => simp [astEqB, show compareV (AstV.str s) (.bool true) = .gt from rfl]
  | arr xs => simp [astEqB, show compareV (AstV.arr xs) (.bool true) = .gt from rfl]
  | obj xs => simp [astEqB, show compareV (AstV.obj xs) (.bool true) = .gt from rfl]
  | set xs => simp [astEqB, show compareV (AstV.set xs) (.bool true) = .gt from rfl]

theorem maxStep_ub (m e : AstV) :
    compareV m (maxStep m e) ≠ .gt ∧ compareV e (maxStep m e) ≠ .gt := by
  unfold maxStep
  by_cases h : compareV m e ≠ .gt
  · rw [if_pos h]
    exact ⟨h, by rw [compareV_self]; decide⟩
  · rw [if_neg h]
    push_neg at h
    refine ⟨by rw [compareV_self]; decide, ?_⟩
    have hs := compareV_swap m e
    rw [h] at hs
    rw [← hs]
    decide

theorem foldl_maxStep_ub (xs : List AstV) (m : AstV) :
    compareV m (xs.foldl maxStep m) ≠ .gt ∧
    ∀ x ∈ xs, compareV x (xs.foldl maxStep m) ≠ .gt := by
  induction xs generalizing m with
  | nil =>
    refine ⟨?_, by simp⟩
    simp only [List.foldl_nil]
    rw [compareV_self]
    decide
  | cons x xs ih =>
    simp only [List.foldl_cons]
    obtain ⟨hacc, hall⟩ := ih (maxStep m x)
    obtain ⟨hm, hx⟩ := maxStep_ub m x
    refine ⟨compareV_le_trans _ _ _ hm hacc, ?_⟩
    intro y hy
    rcases List.mem_cons.mp hy with rfl | hy
    · exact compareV_le_trans _ _ _ hx hacc
    · exact hall y hy

theorem foldl_maxStep_mem (xs : List AstV) (m : AstV) :
    xs.foldl maxStep m = m ∨ xs.foldl maxStep m ∈ xs := by
  induction xs generalizing m with
  | nil => exact Or.inl rfl
  | cons x xs ih =>
    simp only [List.foldl_cons]
    rcases ih (maxStep m x) with h | h
    · rw [h]
      unfold maxStep
      by_cases hc : compareV m x ≠ .gt
      · rw [if_pos hc]; exact Or.inr (List.mem_cons_self x xs)
      · rw [if_neg hc]; exact Or.inl rfl
    · exact Or.inr (List.mem_cons_of_mem x h)

theorem minStep_lb (m e : AstV) (hm : m ≠ .null) :
    compareV (minStep m e) m ≠ .gt ∧ compareV (minStep m e) e ≠ .gt ∧
    (minStep m e = m ∨ minStep m e = e) := by
  unfold minStep
  rw [if_neg (fun h => hm ((compareV_null_eq_iff m).mp h))]
  by_cases h : compareV m e ≠ .lt
  · rw [if_pos h]
    have hs := compareV_swap m e
    refine ⟨?_, by rw [compareV_self]; decide, Or.inr rfl⟩
    cases hc : compareV m e with
    | lt => exact absurd hc h
    | eq => rw [hc] at hs; rw [← hs]; decide
    | gt => rw [hc] at hs; rw [← hs]; decide
  · rw [if_neg h]
    push_neg at h
    exact ⟨by rw [compareV_self]; decide, by rw [h]; decide, Or.inl rfl⟩

theorem foldl_minStep_lb (xs : List AstV) (m : AstV)
    (hxs : ∀ x ∈ xs, x ≠ .null) (hm : m ≠ .null) :
    compareV (xs.foldl minStep m) m ≠ .gt ∧
    (∀ x ∈ xs, compareV (xs.foldl minStep m) x ≠ .gt) ∧
    (xs.foldl minStep m = m ∨ xs.foldl minStep m ∈ xs) := by
  induction xs generalizing m with
  | nil =>
    refine ⟨?_, by simp, Or.inl rfl⟩
    simp only [List.foldl_nil]
    rw [compareV_self]
    decide
  | cons x xs ih =>
    simp only [List.foldl_cons]
    have hx : x ≠ .null := hxs x (List.mem_cons_self x xs)
    obtain ⟨hsm, hse, hsor⟩ := minStep_lb m x hm
    have hstep : minStep m x ≠ .null := by
      rcases hsor with h | h
      · rw [h]; exact hm
      · rw [h]; exact hx
    obtain ⟨hacc, hall, hmem⟩ :=
      ih (minStep m x) (fun y hy => hxs y (List.mem_cons_of_mem x hy)) hstep
    refine ⟨compareV_le_trans _ _ _ hacc hsm, ?_, ?_⟩
    · intro y hy
      rcases List.mem_cons.mp hy with rfl | hy
      · exact compareV_le_trans _ _ _ hacc hse
      · exact hall y hy
    · rcases hmem with h | h
      · rcases hsor with h2 | h2
        · exact Or.inl (h.trans h2)
        · exact Or.inr (by rw [h, h2]; exact List.mem_cons_self x xs)
      · exact Or.inr (List.mem_cons_of_mem x h)

theorem max_of_nonempty (xs : List AstV) (hne : xs ≠ []) :
    xs.foldl maxStep .null ∈ xs ∧
    ∀ x ∈ xs, compareV x (xs.foldl maxStep .null) ≠ .gt := by
  cases xs with
  | nil => exact absurd rfl hne
  | cons x₀ rest =>
    have hstep : maxStep .null x₀ = x₀ := by
      unfold maxStep
      rw [if_pos (compareV_null_le x₀)]
    constructor
    · simp only [List.foldl_cons, hstep]
      rcases foldl_maxStep_mem rest x₀ with h | h
      · rw [h]; exact List.mem_cons_self _ _
      · exact List.mem_cons_of_mem _ h
    · intro x hx
      simp only [List.foldl_cons, hstep]
      obtain ⟨hacc, hall⟩ := foldl_maxStep_ub rest x₀
      rcases List.mem_cons.mp hx with rfl | hx
      · exact hacc
      · exact hall x hx

theorem min_of_nonempty (xs : List AstV) (hne : xs ≠ [])
    (hnn : ∀ x ∈ xs, x ≠ .null) :
    xs.foldl minStep .null ∈ xs ∧
    ∀ x ∈ xs, compareV (xs.foldl minStep .null) x ≠ .gt := by
  cases xs with
  | nil => exact absurd rfl hne
  | cons x₀ rest =>
    have hstep : minStep .null x₀ = x₀ := by
      unfold minStep
      rw [if_pos (show compareV AstV.null .null = .eq from rfl)]
    have hx0 : x₀ ≠ .null := hnn x₀ (List.mem_cons_self _ _)
    obtain ⟨hacc, hall, hmem⟩ := foldl_minStep_lb rest x₀
        (fun y hy => hnn y (List.mem_cons_of_mem _ hy)) hx0
    constructor
    · simp only [List.foldl_cons, hstep]
      rcases hmem with h | h
      · rw [h]; exact List.mem_cons_self _ _
      · exact List.mem_cons_of_mem _ h
    · intro x hx
      simp only [List.foldl_cons, hstep]
      rcases List.mem_cons.mp hx with rfl | hx
      · exact hacc
      · exact hall x hx

/-- C8: for every non-empty array or set none of whose elements is null,
`builtinMin` returns the least element and `builtinMax` returns the
greatest element under the `ast.Compare` order; for an empty array or
set, both return the `BuiltinEmpty` error. -/
theorem builtin_min_max_semantics (v : AstV) (xs : List AstV)
    (hv : v = .arr xs ∨ v = .set xs) :
    (xs = [] → builtinMax v = .error .empty ∧ builtinMin v = .error .empty) ∧
    (xs ≠ [] → (∀ x ∈ xs, x ≠ .null) →
      (∃ r, builtinMax v = .ok r ∧ r ∈ xs ∧ ∀ x ∈ xs, compareV x r ≠ .gt) ∧
      (∃ r, builtinMin v = .ok r ∧ r ∈ xs ∧ ∀ x ∈ xs, compareV r x ≠ .gt)) := by
  have hgen : ∀ hne : xs ≠ [], ∀ hnn : (∀ x ∈ xs, x ≠ AstV.null),
      (xs.foldl maxStep .null ∈ xs ∧
        ∀ x ∈ xs, compareV x (xs.foldl maxStep .null) ≠ .gt) ∧
      (xs.foldl minStep .null ∈ xs ∧
        ∀ x ∈ xs, compareV (xs.foldl minStep .null) x ≠ .gt) :=
    fun hne hnn => ⟨max_of_nonempty xs hne, min_of_nonempty xs hne hnn⟩
  have hlen : xs ≠ [] → ¬(xs.length = 0) :=
    fun hne h => hne (List.length_eq_zero.mp h)
  rcases hv with rfl | rfl
  · refine ⟨?_, ?_⟩
    · rintro rfl
      exact ⟨rfl, rfl⟩
    · intro hne hnn
      obtain ⟨⟨hmem₁, hub⟩, hmem₂, hlb⟩ := hgen hne hnn
      refine ⟨⟨xs.foldl maxStep .null, ?_, hmem₁, hub⟩,
              ⟨xs.foldl minStep .null, ?_, hmem₂, hlb⟩⟩
      · simp [builtinMax, hlen hne]
      · simp [builtinMin, hlen hne]
  · refine ⟨?_, ?_⟩
    · rintro rfl
      exact ⟨rfl, rfl⟩
    · intro hne hnn
      obtain ⟨⟨hmem₁, hub⟩, hmem₂, hlb⟩ := hgen hne hnn
      refine ⟨⟨xs.foldl maxStep .null, ?_, hmem₁, hub⟩,
              ⟨xs.foldl minStep .null, ?_, hmem₂, hlb⟩⟩
      · simp [builtinMax, hlen hne]
      · simp [builtinMin, hlen hne]

/-- Witness for C8 at the concrete array `[3, 1, 2]`. -/
theorem builtin_min_max_semantics_witness :
    ([AstV.num 3, .num 1, .num 2] ≠ ([] : List AstV)) ∧
    (∀ x ∈ [AstV.num 3, .num 1, .num 2], x ≠ .null) ∧
    ((∃ r, builtinMax (.arr [AstV.num 3, .num 1, .num 2]) = .ok r ∧
        r ∈ [AstV.num 3, .num 1, .num 2] ∧
        ∀ x ∈ [AstV.num 3, .num 1, .num 2], compareV x r ≠ .gt) ∧
     (∃ r, builtinMin (.arr [AstV.num 3, .num 1, .num 2]) = .ok r ∧
        r ∈ [AstV.num 3, .num 1, .num 2] ∧
        ∀ x ∈ [AstV.num 3, .num 1, .num 2], compareV r x ≠ .gt)) :=
  ⟨by simp, by simp,
   (builtin_min_max_semantics (.arr [AstV.num 3, .num 1, .num 2])
      [AstV.num 3, .num 1, .num 2] (Or.inl rfl)).2 (by simp) (by simp)⟩

/-- C9: for every array or set, `builtinAll` returns boolean true iff
every element equals the boolean term true, `builtinAny` returns boolean
true iff some element equals the boolean term true, and neither returns
an error on collection input. -/
theorem builtin_all_any_semantics (v : AstV) (xs : List AstV)
    (hv : v = .arr xs ∨ v = .set xs) :
    (∃ b, builtinAll v = .ok (.bool b)) ∧
    (builtinAll v = .ok (.bool true) ↔ ∀ x ∈ xs, x = .bool true) ∧
    (∃ b, builtinAny v = .ok (.bool b)) ∧
    (builtinAny v = .ok (.bool true) ↔ ∃ x ∈ xs, x = .bool true) := by
  rcases hv with rfl | rfl
  · refine ⟨⟨_, rfl⟩, ?_, ⟨_, rfl⟩, ?_⟩
    · simp [builtinAll, List.all_eq_true, astEqB_boolTrue_iff]
    · simp [builtinAny, List.any_eq_true, astEqB_boolTrue_iff]
  · refine ⟨⟨_, rfl⟩, ?_, ⟨_, rfl⟩, ?_⟩
    · simp [builtinAll, List.all_eq_true, astEqB_boolTrue_iff]
    · simp [builtinAny, List.any_eq_true, astEqB_boolTrue_iff]

/-- Witness for C9: `all` on `[true, true]` and `any` on
`[false, true]`. -/
theorem builtin_all_any_semantics_witness :
    builtinAll (.arr [AstV.bool true, .bool true]) = .ok (.bool true) ∧
    builtinAny (.arr [AstV.bool false, .bool true]) = .ok (.bool true) :=
  ⟨((builtin_all_any_semantics (.arr [AstV.bool true, .bool true])
      [AstV.bool true, .bool true] (Or.inl rfl)).2.1).mpr (by simp),
   ((builtin_all_any_semantics (.arr [AstV.bool false, .bool true])
      [AstV.bool false, .bool true] (Or.inl rfl)).2.2.2).mpr
     ⟨.bool true, by simp, rfl⟩⟩

mutual

theorem visit_spec (adj : Nat → List Nat) (white black : List Nat)
    (node : Nat) (black' : List Nat)
    (h : visit adj white black node = some black') :
    (∃ ext, black' = black ++ ext ∧ ∀ x ∈ ext, x ∈ white) ∧ node ∈ black' := by
  unfold visit at h
  by_cases hb : node ∈ black
  · rw [if_pos hb] at h
    obtain rfl := Option.some.inj h
    exact ⟨⟨[], by simp⟩, hb⟩
  · rw [if_neg hb] at h
    by_cases hw : node ∈ white
    · rw [dif_pos hw] at h
      cases hin : visitList adj (white.erase node) black (adj node) with
      | none => rw [hin] at h; exact Option.noConfusion h
      | some b₁ =>
        rw [hin] at h
        obtain rfl := Option.some.inj h
        obtain ⟨⟨ext, rfl, hsub⟩, _⟩ :=
          visitList_spec adj (white.erase node) black (adj node) b₁ hin
        refine ⟨⟨ext ++ [node], by simp, ?_⟩, by simp⟩
        intro x hx
        rcases List.mem_append.mp hx with hx | hx
        · exact List.mem_of_mem_erase (hsub x hx)
        · rw [List.mem_singleton.mp hx]; exact hw
    · rw [dif_neg hw] at h
      exact Option.noConfusion h
  termination_by (white.length, 0)
  decreasing_by
    all_goals simp_wf
    all_goals first
      | exact Prod.Lex.left _ _ (by
          have h1 := List.length_erase_of_mem hw
          have h2 := List.length_pos_of_mem hw
          omega)
      | exact Prod.Lex.right _ (by omega)

theorem visitList_spec (adj : Nat → List Nat) (white : List Nat) :
    ∀ (black deps black' : List Nat),
    visitList adj white black deps = some black' →
    ((∃ ext, black' = black ++ ext ∧ ∀ x ∈ ext, x ∈ white) ∧
     ∀ d ∈ deps, d ∈ black')
  | black, [], black', h => by
    unfold visitList at h
    obtain rfl := Option.some.inj h
    exact ⟨⟨[], by simp⟩, by simp⟩
  | black, d :: ds, black', h => by
    unfold visitList at h
    cases hv : visit adj white black d with
    | none => rw [hv] at h; exact Option.noConfusion h
    | some b₁ =>
      rw [hv] at h
      obtain ⟨⟨ext₁, rfl, hsub₁⟩, hd⟩ := visit_spec adj white black d b₁ hv
      obtain ⟨⟨ext₂, rfl, hsub₂⟩, hds⟩ :=
        visitList_spec adj white (black ++ ext₁) ds black' h
      refine ⟨⟨ext₁ ++ ext₂, by simp, ?_⟩, ?_⟩
      · intro x hx
        rcases List.mem_append.mp hx with hx | hx
        · exact hsub₁ x hx
        · exact hsub₂ x hx
      · intro e he
        rcases List.mem_cons.mp he with rfl | he
        · exact List.mem_append_left ext₂ hd
        · exact hds e he
  termination_by black deps black' h => (white.length, deps.length + 1)
  decreasing_by
    all_goals simp_wf
    all_goals first
      | exact Prod.Lex.right _ (by omega)
      | exact Prod.Lex.left _ _ (by omega)

end

mutual

theorem visit_good (adj : Nat → List Nat) (white : List Nat) :
    ∀ (black : List Nat) (node : Nat) (black' : List Nat),
    white.Nodup → TopoOrder adj black →
    visit adj white black node = some black' → TopoOrder adj black'
  | black, node, black', hwd, hg, h => by
    unfold visit at h
    by_cases hb : node ∈ black
    · rw [if_pos hb] at h
      obtain rfl := Option.some.inj h
      exact hg
    · rw [if_neg hb] at h
      by_cases hw : node ∈ white
      · rw [dif_pos hw] at h
        cases hin : visitList adj (white.erase node) black (adj node) with
        | none => rw [hin] at h; exact Option.noConfusion h
        | some b₁ =>
          rw [hin] at h
          obtain rfl := Option.some.inj h
          have hg₁ : TopoOrder adj b₁ :=
            visitList_good adj (white.erase node) black (adj node) b₁
              (hwd.erase node) hg hin
          obtain ⟨⟨ext, hext, hsub⟩, _⟩ :=
            visitList_spec adj (white.erase node) black (adj node) b₁ hin
          have hdeps : ∀ d ∈ adj node, d ∈ b₁ :=
            (visitList_spec adj (white.erase node) black (adj node) b₁ hin).2
          have hnode : node ∉ b₁ := by
            rw [hext]
            intro hmem
            rcases List.mem_append.mp hmem with hm | hm
            · exact hb hm
            · have hcontra := hsub node hm
              exact ((List.Nodup.mem_erase_iff hwd).mp hcontra).1 rfl
          constructor
          · rw [List.nodup_append]
            refine ⟨hg₁.1, List.nodup_singleton node, ?_⟩
            intro a ha hmem
            rw [List.mem_singleton.mp hmem] at ha
            exact hnode ha
          · intro i hi d hd
            rcases List.mem_append.mp hi with hi | hi
            · obtain ⟨hdin, hidx⟩ := hg₁.2 i hi d hd
              refine ⟨List.mem_append_left _ hdin, ?_⟩
              rw [List.indexOf_append_of_mem hdin, List.indexOf_append_of_mem hi]
              exact hidx
            · obtain rfl := List.mem_singleton.mp hi
              have hdin : d ∈ b₁ := hdeps d hd
              refine ⟨List.mem_append_left _ hdin, ?_⟩
              rw [List.indexOf_append_of_mem hdin,
                List.indexOf_append_of_not_mem hnode]
              have hlt := List.indexOf_lt_length.mpr hdin
              rw [List.indexOf_cons_self]
              omega
      · rw [dif_neg hw] at h
        exact Option.noConfusion h
  termination_by black node black' => (white.length, 0)
  decreasing_by
    all_goals simp_wf
    all_goals first
      | exact Prod.Lex.left _ _ (by
          have h1 := List.length_erase_of_mem hw
          have h2 := List.length_pos_of_mem hw
          omega)
      | exact Prod.Lex.right _ (by omega)

theorem visitList_good (adj : Nat → List Nat) (white : List Nat) :
    ∀ (black : List Nat) (deps : List Nat) (black' : List Nat),
    white.Nodup → TopoOrder adj black →
    visitList adj white black deps = some black' → TopoOrder adj black'
  | black, [], black', _, hg, h => by
    unfold visitList at h
    obtain rfl := Option.some.inj h
    exact hg
  | black, d :: ds, black', hwd, hg, h => by
    unfold visitList at h
    cases hv : visit adj white black d with
    | none => rw [hv] at h; exact Option.noConfusion h
    | some b₁ =>
      rw [hv] at h
      have hg₁ : TopoOrder adj b₁ := visit_good adj white black d b₁ hwd hg hv
      exact visitList_good adj white b₁ ds black' hwd hg₁ h
  termination_by black deps black' => (white.length, deps.length + 1)
  decreasing_by
    all_goals simp_wf
    all_goals first
      | exact Prod.Lex.right _ (by omega)
      | exact Prod.Lex.left _ _ (by omega)

end

mutual

theorem visit_complete (adj : Nat → List Nat) (n : Nat)
    (hwf : ∀ i < n, ∀ d ∈ adj i, d < n)
    (hacyc : ∀ i, i < n → ¬ Relation.TransGen (fun a b => b ∈ adj a) i i)
    (white : List Nat) :
    ∀ (black : List Nat) (node : Nat),
    white.Nodup → node < n → (node ∈ white ∨ node ∈ black) →
    (∀ j, j < n → j ∉ white → j ∉ black →
      Relation.TransGen (fun a b => b ∈ adj a) j node) →
    (visit adj white black node).isSome
  | black, node, hwd, hn, hnode, hinv => by
    unfold visit
    by_cases hb : node ∈ black
    · rw [if_pos hb]
      rfl
    · rw [if_neg hb]
      have hw : node ∈ white := hnode.resolve_right hb
      rw [dif_pos hw]
      have hinv' : ∀ j, j < n → j ∉ white.erase node → j ∉ black →
          (j = node ∨ Relation.TransGen (fun a b => b ∈ adj a) j node) := by
        intro j hj hjw hjb
        by_cases hjn : j = node
        · exact Or.inl hjn
        · have hnw : j ∉ white := fun hjm =>
            hjw ((List.Nodup.mem_erase_iff hwd).mpr ⟨hjn, hjm⟩)
          exact Or.inr (hinv j hj hnw hjb)
      have hlist := visitList_complete adj n hwf hacyc (white.erase node)
        black node (adj node) (hwd.erase node) hn (fun d hd => hd) hinv'
      obtain ⟨b₁, hb₁⟩ := Option.isSome_iff_exists.mp hlist
      rw [hb₁]
      rfl
  termination_by black node => (white.length, 0)
  decreasing_by
    all_goals simp_wf
    all_goals first
      | exact Prod.Lex.left _ _ (by
          have h1 := List.length_erase_of_mem hw
          have h2 := List.length_pos_of_mem hw
          omega)
      | exact Prod.Lex.right _ (by omega)

theorem visitList_complete (adj : Nat → List Nat) (n : Nat)
    (hwf : ∀ i < n, ∀ d ∈ adj i, d < n)
    (hacyc : ∀ i, i < n → ¬ Relation.TransGen (fun a b => b ∈ adj a) i i)
    (white : List Nat) :
    ∀ (black : List Nat) (node : Nat) (deps : List Nat),
    white.Nodup → node < n →
    (∀ d ∈ deps, d ∈ adj node) →
    (∀ j, j < n → j ∉ white → j ∉ black →
      (j = node ∨ Relation.TransGen (fun a b => b ∈ adj a) j node)) →
    (visitList adj white black deps).isSome
  | black, node, [], _, _, _, _ => by
    unfold visitList
    rfl
  | black, node, d :: ds, hwd, hn, hdeps, hinv => by
    have hd_adj : d ∈ adj node := hdeps d (List.mem_cons_self _ _)
    have hd_n : d < n := hwf node hn d hd_adj
    have hd_status : d ∈ white ∨ d ∈ black := by
      by_cases hdb : d ∈ black
      · exact Or.inr hdb
      · by_cases hdw : d ∈ white
        · exact Or.inl hdw
        · exfalso
          rcases hinv d hd_n hdw hdb with rfl | hreach
          · exact hacyc d hd_n (Relation.TransGen.single hd_adj)
          · exact hacyc d hd_n (Relation.TransGen.tail hreach hd_adj)
    have hinv_d : ∀ j, j < n → j ∉ white → j ∉ black →
        Relation.TransGen (fun a b => b ∈ adj a) j d := by
      intro j hj hjw hjb
      rcases hinv j hj hjw hjb with rfl | hreach
      · exact Relation.TransGen.single hd_adj
      · exact Relation.TransGen.tail hreach hd_adj
    have hv := visit_complete adj n hwf hacyc white black d hwd hd_n hd_status hinv_d
    obtain ⟨b₁, hb₁⟩ := Option.isSome_iff_exists.mp hv
    unfold visitList
    rw [hb₁]
    obtain ⟨⟨ext, rfl, _⟩, _⟩ := visit_spec adj white black d b₁ hb₁
    have hinv₁ : ∀ j, j < n → j ∉ white → j ∉ black ++ ext →
        (j = node ∨ Relation.TransGen (fun a b => b ∈ adj a) j node) := by
      intro j hj hjw hjb
      exact hinv j hj hjw (fun hm => hjb (List.mem_append_left ext hm))
    exact visitList_complete adj n hwf hacyc white (black ++ ext) node ds hwd hn
      (fun e he => hdeps e (List.mem_cons_of_mem d he)) hinv₁
  termination_by black node deps => (white.length, deps.length + 1)
  decreasing_by
    all_goals simp_wf
    all_goals first
      | exact Prod.Lex.right _ (by omega)
      | exact Prod.Lex.left _ _ (by omega)

end




theorem sortLoop_good_and_covers (adj : Nat → List Nat) (n : Nat)
    (pending : List Nat) :
    ∀ (black final : List Nat), TopoOrder adj black →
    sortLoop adj n black pending = some final →
    TopoOrder adj final ∧ (∃ ext, final = black ++ ext) ∧
    ∀ i ∈ pending, i ∈ final := by
  induction pending with
  | nil =>
    intro black final hg h
    unfold sortLoop at h
    obtain rfl := Option.some.inj h
    exact ⟨hg, ⟨[], by simp⟩, by simp⟩
  | cons i rest ih =>
    intro black final hg h
    unfold sortLoop at h
    cases hv : visit adj ((List.range n).filter (fun j => decide (j ∉ black)))
        black i with
    | none => rw [hv] at h; exact Option.noConfusion h
    | some b₁ =>
      rw [hv] at h
      have hwd : ((List.range n).filter (fun j => decide (j ∉ black))).Nodup :=
        (List.nodup_range n).filter _
      have hg₁ := visit_good adj _ black i b₁ hwd hg hv
      obtain ⟨⟨ext₁, rfl, _⟩, hi⟩ := visit_spec adj _ black i b₁ hv
      obtain ⟨hgf, ⟨ext₂, rfl⟩, hcov⟩ := ih (black ++ ext₁) _ hg₁ h
      refine ⟨hgf, ⟨ext₁ ++ ext₂, by simp⟩, ?_⟩
      intro j hj
      rcases List.mem_cons.mp hj with rfl | hj
      · exact List.mem_append_left ext₂ hi
      · exact hcov j hj

theorem sortLoop_complete (adj : Nat → List Nat) (n : Nat)
    (hwf : ∀ i < n, ∀ d ∈ adj i, d < n)
    (hacyc : ∀ i, i < n → ¬ Relation.TransGen (fun a b => b ∈ adj a) i i)
    (pending : List Nat) :
    ∀ (black : List Nat), (∀ i ∈ pending, i < n) →
    (sortLoop adj n black pending).isSome := by
  induction pending with
  | nil =>
    intro black _
    unfold sortLoop
    rfl
  | cons i rest ih =>
    intro black hpend
    have hi_n : i < n := hpend i (List.mem_cons_self _ _)
    have hwd : ((List.range n).filter (fun j => decide (j ∉ black))).Nodup :=
      (List.nodup_range n).filter _
    have hnode : i ∈ (List.range n).filter (fun j => decide (j ∉ black)) ∨
        i ∈ black := by
      by_cases hib : i ∈ black
      · exact Or.inr hib
      · refine Or.inl ?_
        rw [List.mem_filter]
        exact ⟨List.mem_range.mpr hi_n, by simpa using hib⟩
    have hinv : ∀ j, j < n →
        j ∉ (List.range n).filter (fun k => decide (k ∉ black)) → j ∉ black →
        Relation.TransGen (fun a b => b ∈ adj a) j i := by
      intro j hj hjw hjb
      exact absurd (by
        rw [List.mem_filter]
        exact ⟨List.mem_range.mpr hj, by simpa using hjb⟩) hjw
    have hv := visit_complete adj n hwf hacyc _ black i hwd hi_n hnode hinv
    obtain ⟨b₁, hb₁⟩ := Option.isSome_iff_exists.mp hv
    unfold sortLoop
    rw [hb₁]
    exact ih b₁ (fun j hj => hpend j (List.mem_cons_of_mem _ hj))

/-- C7: for every rule dependency graph with a cycle, `Graph.Sort`
reports failure; for every acyclic rule graph it returns an ordering
covering all rules in which every rule appears before every rule that
depends on it. -/
theorem graph_sort_correct (g : RuleGraph) (hwf : g.wf) :
    (g.Cyclic → g.sortRules = none) ∧
    (¬ g.Cyclic → ∃ order, g.sortRules = some order ∧
      (∀ i < g.n, i ∈ order) ∧ TopoOrder g.adj order) := by
  have hempty : TopoOrder g.adj [] :=
    ⟨List.nodup_nil, fun i hi => absurd hi (List.not_mem_nil i)⟩
  constructor
  · rintro ⟨i, hin, hcyc⟩
    cases hs : g.sortRules with
    | none => rfl
    | some order =>
      exfalso
      obtain ⟨hgood, _, hcov⟩ :=
        sortLoop_good_and_covers g.adj g.n (List.range g.n) [] order hempty hs
      have hi_in : i ∈ order := hcov i (List.mem_range.mpr hin)
      have hreach : ∀ a b, Relation.TransGen (fun a b => b ∈ g.adj a) a b →
          a ∈ order → b ∈ order ∧ order.indexOf b < order.indexOf a := by
        intro a b h
        induction h with
        | single hedge => exact fun ha => hgood.2 a ha _ hedge
        | tail hab hedge ih =>
          intro ha
          obtain ⟨hb, hlt⟩ := ih ha
          obtain ⟨hc, hlt2⟩ := hgood.2 _ hb _ hedge
          exact ⟨hc, lt_trans hlt2 hlt⟩
      obtain ⟨_, hlt⟩ := hreach i i hcyc hi_in
      exact lt_irrefl _ hlt
  · intro hnc
    have hacyc : ∀ i, i < g.n →
        ¬ Relation.TransGen (fun a b => b ∈ g.adj a) i i :=
      fun i hi hc => hnc ⟨i, hi, hc⟩
    have hs := sortLoop_complete g.adj g.n hwf hacyc (List.range g.n) []
      (fun i hi => List.mem_range.mp hi)
    obtain ⟨order, horder⟩ := Option.isSome_iff_exists.mp hs
    obtain ⟨hgood, _, hcov⟩ :=
      sortLoop_good_and_covers g.adj g.n (List.range g.n) [] order hempty horder
    exact ⟨order, horder, fun i hi => hcov i (List.mem_range.mpr hi), hgood⟩

/-- Witness for C7: the one-rule graph whose rule depends on itself is
cyclic, and `Sort` reports failure on it. -/
theorem graph_sort_correct_witness :
    RuleGraph.sortRules ⟨1, fun _ => [0]⟩ = none :=
  (graph_sort_correct ⟨1, fun _ => [0]⟩ (by
      intro i hi d hd
      simp only [List.mem_singleton] at hd
      omega)).1
    ⟨0, Nat.zero_lt_one, Relation.TransGen.single (List.mem_singleton.mpr rfl)⟩

mutual

theorem getRefRecExtent_total : ∀ (node : TypeTree), ∃ t, getRefRecExtent node = .ok t
  | .node (some t) _ => ⟨t, rfl⟩
  | .node none children => by
    obtain ⟨props, hp⟩ := extentChildren_total children
    exact ⟨.objectT props (some (some .stringT, some .anyT)),
      by simp [getRefRecExtent, hp]⟩
  termination_by structural node => node

theorem extentChildren_total :
    ∀ (children : List (TEVal × TypeTree)), ∃ props, extentChildren children = .ok props
  | [] => ⟨[], rfl⟩
  | (k, child) :: rest => by
    obtain ⟨t, ht⟩ := getRefRecExtent_total child
    obtain ⟨props, hp⟩ := extentChildren_total rest
    cases k <;> simp [extentChildren, ht, hp, toJSON]
  termination_by structural children => children

end

mutual

theorem getRef_total (env : TEEnv) (head : TEVal) (tail : List TEVal) :
    ∃ r, getRef env head tail = .ok r := by
  cases htc : treeChild env.tree head with
  | none =>
    obtain ⟨r, hr⟩ := getRefFallback_total env head tail
    exact ⟨r, by rw [getRef, htc]; exact hr⟩
  | some node =>
    obtain ⟨r, hr⟩ := getRefRec_total env node head tail tail
    exact ⟨r, by rw [getRef, htc]; exact hr⟩
  termination_by (sizeOf env, 1, 0)

theorem getRefRec_total (env : TEEnv) (node : TypeTree) (head : TEVal)
    (fullTail tail : List TEVal) :
    ∃ r, getRefRec env node head fullTail tail = .ok r := by
  cases tail with
  | nil =>
    obtain ⟨t, ht⟩ := getRefRecExtent_total node
    exact ⟨some t, by rw [getRefRec, ht]⟩
  | cons t0 rest =>
    cases node with
    | node value children =>
      cases value with
      | some val => exact ⟨selectRef (some val) (t0 :: rest), by rw [getRefRec]⟩
      | none =>
        by_cases hc : isConstant t0
        · cases hcl : childLookup children t0 with
          | none =>
            obtain ⟨r, hr⟩ := getRefFallback_total env head fullTail
            exact ⟨r, by rw [getRefRec]; simp only [hc, if_true, hcl]; exact hr⟩
          | some child =>
            obtain ⟨r, hr⟩ := getRefRec_total env child head fullTail rest
            exact ⟨r, by rw [getRefRec]; simp only [hc, if_true, hcl]; exact hr⟩
        · obtain ⟨t, ht⟩ := getRefRecExtent_total (TypeTree.node none children)
          refine ⟨selectRef (some t) (t0 :: rest), ?_⟩
          rw [getRefRec, if_neg hc, ht]
  termination_by (sizeOf env, 0, tail.length + 1)

theorem getRefFallback_total (env : TEEnv) (head : TEVal) (fullTail : List TEVal) :
    ∃ r, getRefFallback env head fullTail = .ok r := by
  cases env with
  | mk tree next =>
    cases next with
    | some e =>
      obtain ⟨r, hr⟩ := getRef_total e head fullTail
      exact ⟨r, by rw [getRefFallback]; exact hr⟩
    | none =>
      cases hrd : isRootDocument head with
      | true => exact ⟨some .anyT, by rw [getRefFallback]; simp [hrd]⟩
      | false => exact ⟨none, by rw [getRefFallback]; simp [hrd]⟩
  termination_by (sizeOf env, 0, 0)

end

mutual

theorem getValue_total (checker : Nat → Option TEEnv) :
    ∀ (env : TEEnv) (v : TEVal), ∃ r, getValue checker env v = .ok r
  | _, .null => ⟨some .nullT, rfl⟩
  | _, .boolVal _ => ⟨some .booleanT, rfl⟩
  | _, .number _ => ⟨some .numberT, rfl⟩
  | _, .string _ => ⟨some .stringT, rfl⟩
  | env, .array elems => by
    obtain ⟨ts, hts⟩ := getArrayElems_total checker env elems
    exact ⟨some (.arrayT ts (if ts.isEmpty then some .anyT else none)),
      by rw [getValue, hts]⟩
  | env, .lazyObject fields => by
    obtain ⟨⟨stat, dyn⟩, hp⟩ := getObjectFields_total checker env fields
    exact ⟨some (.objectT stat
        (if stat.isEmpty && dyn.isNone then some (some .anyT, some .anyT)
         else dyn)),
      by rw [getValue, hp]⟩
  | env, .object fields => by
    obtain ⟨⟨stat, dyn⟩, hp⟩ := getObjectFields_total checker env fields
    exact ⟨some (.objectT stat
        (if stat.isEmpty && dyn.isNone then some (some .anyT, some .anyT)
         else dyn)),
      by rw [getValue, hp]⟩
  | env, .set elems => by
    obtain ⟨acc, hacc⟩ := foldSet_total checker env none elems
    exact ⟨some (.setT (some (acc.getD .anyT))), by rw [getValue, hacc]⟩
  | env, .arrayCompr body term => by
    cases hch : checker body with
    | none => exact ⟨none, by rw [getValue, hch]⟩
    | some cpy =>
      obtain ⟨t, ht⟩ := getValue_total checker cpy term
      exact ⟨some (.arrayT [] t), by simp only [getValue, hch, ht]⟩
  | env, .objectCompr body key value => by
    cases hch : checker body with
    | none => exact ⟨none, by rw [getValue, hch]⟩
    | some cpy =>
      obtain ⟨tk, htk⟩ := getValue_total checker cpy key
      obtain ⟨tv, htv⟩ := getValue_total checker cpy value
      exact ⟨some (.objectT [] (some (tk, tv))), by simp only [getValue, hch, htk, htv]⟩
  | env, .setCompr body term => by
    cases hch : checker body with
    | none => exact ⟨none, by rw [getValue, hch]⟩
    | some cpy =>
      obtain ⟨t, ht⟩ := getValue_total checker cpy term
      exact ⟨some (.setT t), by simp only [getValue, hch, ht]⟩
  | env, .ref head tail => by
    obtain ⟨r, hr⟩ := getRef_total env head tail
    exact ⟨r, by rw [getValue]; exact hr⟩
  | env, .varV s => ⟨getVar env s, rfl⟩
  | _, .call _ => ⟨none, rfl⟩
  termination_by structural env v => v

theorem getArrayElems_total (checker : Nat → Option TEEnv) :
    ∀ (env : TEEnv) (l : List TEVal), ∃ r, getArrayElems checker env l = .ok r
  | _, [] => ⟨[], rfl⟩
  | env, x :: xs => by
    obtain ⟨t, ht⟩ := getValue_total checker env x
    obtain ⟨ts, hts⟩ := getArrayElems_total checker env xs
    exact ⟨t :: ts, by rw [getArrayElems, ht, hts]⟩
  termination_by structural env l => l

theorem getObjectFields_total (checker : Nat → Option TEEnv) :
    ∀ (env : TEEnv) (l : List (TEVal × TEVal)),
      ∃ r, getObjectFields checker env l = .ok r
  | _, [] => ⟨([], none), rfl⟩
  | env, (k, v) :: rest => by
    obtain ⟨tk, htk⟩ := getValue_total checker env k
    obtain ⟨tv, htv⟩ := getValue_total checker env v
    obtain ⟨⟨stat, dyn⟩, hrest⟩ := getObjectFields_total checker env rest
    cases hkj : (if isConstant k then toJSON k else none) with
    | some kj =>
      exact ⟨((kj, tv) :: stat, dyn),
        by simp only [getObjectFields, hkj, htv, hrest]⟩
    | none =>
      refine ⟨(stat, match dyn with | some d => some d | none => some (tk, tv)), ?_⟩
      simp only [getObjectFields, hkj, htk, htv, hrest]
      cases dyn <;> rfl
  termination_by structural env l => l

theorem foldSet_total (checker : Nat → Option TEEnv) :
    ∀ (env : TEEnv) (acc : Option Ty) (l : List TEVal),
      ∃ r, foldSet checker env acc l = .ok r
  | _, acc, [] => ⟨acc, rfl⟩
  | env, acc, e :: rest => by
    obtain ⟨t, ht⟩ := getValue_total checker env e
    obtain ⟨r, hr⟩ := foldSet_total checker env (orOpt acc t) rest
    exact ⟨r, by rw [foldSet, ht]; exact hr⟩
  termination_by structural env acc l => l

end

/-- **C4.** `TypeEnv.Get` is total over the `ast.Value` variant: for every
value input — null, boolean, number, string, array, object (eager or
lazy), set, any comprehension, ref, var or call — it returns a result
without reaching the `panic("unreachable")` default branch (modelled as
the error outcome), and a term input is unwrapped to its value. -/
theorem typeenv_get_total (checker : Nat → Option TEEnv) (env : TEEnv) (v : TEVal) :
    (∃ r, TypeEnvGet checker env (.val v) = .ok r) ∧
    TypeEnvGet checker env (.term v) = TypeEnvGet checker env (.val v) :=
  ⟨getValue_total checker env v, rfl⟩

end OPA
